import Mathlib

/-!
# proxyurl: the rotating pool and the address extractor

A shallow embedding of `main.go`.

* A Go `[]string` is a `List String`; slicing and `append` are the list
  operations on the values (the reslicing in `next` and `handleExhaustment`
  only ever reads a leading part of the published slice, and `append` writes
  past the length of its first argument, so sharing of backing arrays does not
  change any value that is read).
* An index expression is modelled with an `Option`: `none` is the run-time
  panic of an index out of range.
* The channel `resChan` has capacity zero, so the snapshot is in exactly one
  place at a time; a run is the sequence of hand-overs between the loop of
  `handleExhaustment` and the callers of `next`.
* `time.Time` is modelled by an integer count of nanoseconds, `Add` is addition
  and `After` is the strict order; `time.Duration` is a signed 64-bit count of
  nanoseconds, so the product with `time.Minute` wraps.
* `refreshFunc` depends on the network, so it is a function of the number of
  the invocation.
-/

namespace ProxyURL

/-! ## The pool -/

/-- The fields of `proxyProvider` the pool logic reads: the validity period in
minutes and the refill source (the result of its `k`-th invocation). -/
structure proxyProvider where
  validPeriod : Nat
  refreshFunc : Nat → List String

/-- `proxyProvider.next` on the snapshot received from `resChan`: the address
returned and the snapshot sent back on `resChan`. -/
def next (pxy : List String) : Option (String × List String) :=
  let pxyLen := pxy.length
  if pxyLen > 1 then
    (pxy.get? (pxyLen - 1)).map fun e => (e, pxy.take (pxyLen - 1))
  else if pxyLen = 0 then
    some ("", [])
  else
    (pxy.get? 0).map fun e => (e, [])

/-- Consecutive calls of `next`, each on the snapshot the previous one sent
back, with no refill in between: the addresses returned, in order, and the last
snapshot sent back. -/
def takes : Nat → List String → Option (List String × List String)
  | 0, s => some ([], s)
  | n + 1, s =>
    match next s with
    | none => none
    | some (e, r) =>
      match takes n r with
      | none => none
      | some (es, r') => some (e :: es, r')

/-- Reduction of an integer to the range of a signed 64-bit integer. -/
def wrapInt64 (x : Int) : Int := (x + 2 ^ 63) % 2 ^ 64 - 2 ^ 63

/-- The constant `time.Minute`, in nanoseconds. -/
def minute : Int := 60000000000

/-- The expression `time.Duration(p.validPeriod)*time.Minute`. -/
def validDuration (validPeriod : Nat) : Int :=
  wrapInt64 (wrapInt64 (validPeriod : Int) * minute)

/-- The condition of line 63:
`p.validPeriod > 0 && time.Now().After(lastUpdated.Add(...))`. -/
def expired (validPeriod : Nat) (now lastUpdated : Int) : Bool :=
  decide (validPeriod > 0) && decide (lastUpdated + validDuration validPeriod < now)

/-- One iteration of the loop of `handleExhaustment`, from the receive to the
send: `pxy` is the snapshot received, `now` the clock reading of line 63 and
`calls` the number of invocations of `refreshFunc` so far.  The result is the
snapshot sent and the new number of invocations. -/
def handleExhaustmentIter (p : proxyProvider) (calls : Nat) (lastUpdated now : Int)
    (pxy : List String) : List String × Nat :=
  let pxy := if expired p.validPeriod now lastUpdated then pxy.take 0 else pxy
  if pxy.length ≤ 1 then
    (p.refreshFunc calls ++ pxy, calls + 1)
  else
    (pxy, calls)

/-- What is known between two iterations of the loop: the snapshot travelling
on `resChan` towards the loop, the variable `lastUpdated`, and the number of
invocations of `refreshFunc` so far. -/
structure RunState where
  inFlight : List String
  lastUpdated : Int
  calls : Nat
deriving DecidableEq

/-- The observations of one round: the snapshot the loop published, the address
the call of `next` returned and the snapshot it sent back. -/
structure RoundLog where
  published : List String
  addr : String
  remainder : List String
deriving DecidableEq

/-- The state `newProxyProvider` sets up: the loop has read the clock (`t0`) and
the empty snapshot has been sent. -/
def initState (t0 : Int) : RunState := { inFlight := [], lastUpdated := t0, calls := 0 }

/-- One round: the loop receives the snapshot in flight and reads the clock
(`now`), publishes; a call of `next` receives the published snapshot, the loop
reads the clock again for `lastUpdated` (`handed`), and `next` sends the
remainder back. -/
def roundStep (p : proxyProvider) (st : RunState) (now handed : Int) : Option (RoundLog × RunState) :=
  let out := handleExhaustmentIter p st.calls st.lastUpdated now st.inFlight
  match next out.1 with
  | none => none
  | some (addr, r) =>
    some ({ published := out.1, addr := addr, remainder := r },
          { inFlight := r, lastUpdated := handed, calls := out.2 })

/-- A run alternating one iteration of the loop with one call of `next`; each
pair of the list is the two clock readings of one round. -/
def run (p : proxyProvider) : RunState → List (Int × Int) → Option (List RoundLog × RunState)
  | st, [] => some ([], st)
  | st, (now, handed) :: clock =>
    match roundStep p st now handed with
    | none => none
    | some (log, st') =>
      match run p st' clock with
      | none => none
      | some (logs, st'') => some (log :: logs, st'')

/-! ## Strings

A Go string is modelled by a `String`; the functions of package `strings` the
program calls are written on the list of characters.  The separators and the
cut sets the program passes are single ASCII characters, for which working on
characters and working on bytes give the same result. -/

/-- The call `strings.Trim(s, cutset)`: all leading and all trailing characters
contained in the cut set are removed. -/
def Trim (s : String) (cutset : List Char) : String :=
  ⟨((s.data.dropWhile fun c => decide (c ∈ cutset)).reverse.dropWhile
      fun c => decide (c ∈ cutset)).reverse⟩

/-- The call `strings.HasPrefix(s, pre)`. -/
def HasPrefix (s pre : String) : Bool := pre.data.isPrefixOf s.data

/-- The call `strings.ReplaceAll(s, old, new)` for `old` and `new` of one
character each. -/
def ReplaceAll (s : String) (old new : Char) : String :=
  ⟨s.data.map fun c => if c = old then new else c⟩

/-- Splitting a list of characters at every occurrence of `sep`. -/
def splitChars (sep : Char) : List Char → List (List Char)
  | [] => [[]]
  | c :: cs =>
    if c = sep then [] :: splitChars sep cs
    else
      match splitChars sep cs with
      | [] => [[c]]
      | piece :: pieces => (c :: piece) :: pieces

/-- The call `strings.Split(s, sep)` for `sep` of one character. -/
def Split (s : String) (sep : Char) : List String :=
  (splitChars sep s.data).map String.mk

/-- The function `splitTextData` (line 236). -/
def splitTextData (data : String) : List String :=
  Split (ReplaceAll (Trim data ['\n', '\t', ' ']) ',' '\n') '\n'

/-! ## Addresses -/

/-- The two calls of package `net/url` the program makes: `url.Parse`, with
`none` for a returned error, and the method `String` of the parsed URL. -/
structure UrlLib where
  URL : Type
  Parse : String → Option URL
  toString : URL → String

/-- The function `validProxyURL` (lines 158-173); `none` is the return with
a non-nil error (and the empty string). -/
def validProxyURL (lib : UrlLib) (addr : String) (fallbkScm : String) : Option String :=
  let addr := Trim addr ['\n', '\t', '\r', ' ', '\t']
  let addr :=
    if HasPrefix addr "socks5://" == false &&
       HasPrefix addr "https://" == false &&
       HasPrefix addr "http://" == false then
      let fallbkScm := if fallbkScm = "" then "socks5" else fallbkScm
      fallbkScm ++ "://" ++ addr
    else addr
  match lib.Parse addr with
  | none => none
  | some u => some (lib.toString u)

/-! ## The extractor

A `json.RawMessage` holds the bytes of one valid JSON value; it is modelled by
the value those bytes denote.  A `map[string]json.RawMessage` is a list of
entries with distinct keys; the nil map and the empty map are the empty list.
The order in which `range` visits a map is not specified by Go: it is given by
an order function, asked with the number of `range` statements executed so far
and the map, which answers with the entries in the order visited. -/

/-- A JSON value; a number carries its literal text. -/
inductive Json where
  | null : Json
  | bool (b : Bool) : Json
  | num (lit : String) : Json
  | str (s : String) : Json
  | arr (xs : List Json) : Json
  | obj (kvs : List (String × Json)) : Json

/-- The type `map[string]json.RawMessage`. -/
abbrev RawMap := List (String × Json)

/-- The assignment `m[k] = v`. -/
def mapSet : RawMap → String → Json → RawMap
  | [], k, v => [(k, v)]
  | (k', v') :: m, k, v => if k' = k then (k, v) :: m else (k', v') :: mapSet m k v

/-- The characters `0` to `9`. -/
def isDigit (c : Char) : Bool := decide ('0' ≤ c) && decide (c ≤ '9')

/-- The part of `isValidNumber` of package `encoding/json` after the integer
digits: an optional fraction, an optional exponent, then the end. -/
def numberTail (s : List Char) : Bool :=
  let s :=
    match s with
    | c :: d :: rest => if c = '.' ∧ isDigit d then rest.dropWhile isDigit else s
    | _ => s
  match s with
  | e :: c :: rest =>
    if e = 'e' ∨ e = 'E' then
      if c = '+' ∨ c = '-' then
        if rest = [] then false else (rest.dropWhile isDigit).isEmpty
      else ((c :: rest).dropWhile isDigit).isEmpty
    else false
  | _ => s.isEmpty

/-- The function `isValidNumber` of package `encoding/json`: the JSON grammar of
a number. -/
def isValidNumber (s : String) : Bool :=
  match s.data with
  | [] => false
  | c :: cs =>
    match (if c = '-' then cs else c :: cs) with
    | [] => false
    | d :: ds =>
      if d = '0' then numberTail ds
      else if decide ('1' ≤ d) && decide (d ≤ '9') then numberTail (ds.dropWhile isDigit)
      else false

/-- The call `json.Unmarshal(v, &s)` for a variable of type `string` holding
`s`: the new value of the variable.  A JSON string is stored; `null` and every
value of another kind leave the variable as it is. -/
def unmarshalString (v : Json) (s : String) : String :=
  match v with
  | .str t => t
  | _ => s

/-- The call `json.Unmarshal(v, &p)` for a variable of type `json.Number`
holding `p`: the new value.  A JSON number is stored as its literal text, a
JSON string is stored when it is a valid number; everything else leaves the
variable as it is. -/
def unmarshalNumber (v : Json) (p : String) : String :=
  match v with
  | .num lit => lit
  | .str t => if isValidNumber t then t else p
  | _ => p

/-- The call `json.Unmarshal(v, &m)` for a variable of type
`map[string]json.RawMessage` holding `m`: whether an error is returned, and the
new value.  The entries of a JSON object are assigned one after the other into
the map, which keeps the entries it had; `null` sets the map to nil; every other
value is an error and leaves the map as it is. -/
def unmarshalMap (v : Json) (m : RawMap) : Bool × RawMap :=
  match v with
  | .obj kvs => (false, kvs.foldl (fun acc kv => mapSet acc kv.1 kv.2) m)
  | .null => (false, [])
  | _ => (true, m)

/-- The call `json.Unmarshal(v, &l)` for a variable of type `[]json.RawMessage`
holding `l`: whether an error is returned, and the new value.  A JSON array
replaces the elements; `null` sets the slice to nil; every other value is an
error and leaves the slice as it is. -/
def unmarshalList (v : Json) (l : List Json) : Bool × List Json :=
  match v with
  | .arr xs => (false, xs)
  | .null => (false, [])
  | _ => (true, l)

/-- The variables of one call of `digInJSONRaw`, and the number of `range`
statements executed so far. -/
structure DigVars where
  result : List String
  ip : String
  port : String
  mapOfRaws : RawMap
  listOfRaws : List Json
  visits : Nat

/-- The body of the loop of `digInJSONRaw` (lines 202-229) for the entry
`(k, v)`; `dig` stands for the recursive calls, and `none` is passed on from
them. -/
def digBody (dig : Nat → RawMap → Option (List String × Nat)) (st : DigVars)
    (kv : String × Json) : Option DigVars :=
  if kv.1 = "ip" then
    let ip := unmarshalString kv.2 st.ip ++ ":"
    if ip ≠ "" ∧ st.port ≠ "" then
      some { st with result := st.result ++ [ip ++ st.port], ip := "", port := "" }
    else
      some { st with ip := ip }
  else if kv.1 = "port" then
    let port := unmarshalNumber kv.2 ""
    if st.ip ≠ "" ∧ port ≠ "" then
      some { st with result := st.result ++ [st.ip ++ port], ip := "", port := "" }
    else
      some { st with port := port }
  else
    let um := unmarshalMap kv.2 st.mapOfRaws
    let st1 := { st with mapOfRaws := um.2 }
    let afterList : Option DigVars :=
      if um.1 then
        let st2 := { st1 with listOfRaws := (unmarshalList kv.2 st1.listOfRaws).2 }
        if st2.ip ++ st2.port = "" ∧ st2.listOfRaws.length > 0 then
          match st2.listOfRaws.get? 0 with
          | none => none
          | some first =>
            let st3 := { st2 with mapOfRaws := (unmarshalMap first st2.mapOfRaws).2 }
            match dig st3.visits st3.mapOfRaws with
            | none => none
            | some (sub, n) => some { st3 with result := st3.result ++ sub, visits := n }
        else
          some st2
      else
        some st1
    match afterList with
    | none => none
    | some st4 =>
      if st4.ip ++ st4.port = "" then
        match dig st4.visits st4.mapOfRaws with
        | none => none
        | some (sub, n) => some { st4 with result := st4.result ++ sub, visits := n }
      else
        some st4

/-- The variables at the entry of the loop (lines 196-200). -/
def digInit (visits : Nat) : DigVars :=
  { result := [], ip := "", port := "", mapOfRaws := [], listOfRaws := [], visits := visits }

/-- The loop of `digInJSONRaw` over the entries in the order visited. -/
def digLoop (dig : Nat → RawMap → Option (List String × Nat)) :
    DigVars → List (String × Json) → Option DigVars
  | st, [] => some st
  | st, kv :: rest =>
    match digBody dig st kv with
    | none => none
    | some st' => digLoop dig st' rest

/-- The function `digInJSONRaw` with a bound on the depth of the recursive
calls: `none` when the bound is reached, otherwise the result and the number of
`range` statements executed. -/
def digFuel (ord : Nat → RawMap → List (String × Json)) :
    Nat → Nat → RawMap → Option (List String × Nat)
  | 0, _, _ => none
  | fuel + 1, visits, data =>
    match digLoop (digFuel ord fuel) (digInit (visits + 1)) (ord visits data) with
    | none => none
    | some st => some (st.result, st.visits)

mutual
/-- The nesting depth of a JSON value: 0 for a scalar. -/
def Json.depth : Json → Nat
  | .arr xs => depthList xs + 1
  | .obj kvs => depthKvs kvs + 1
  | _ => 0
/-- The largest nesting depth among the elements of a list. -/
def depthList : List Json → Nat
  | [] => 0
  | x :: xs => max x.depth (depthList xs)
/-- The largest nesting depth among the values of the entries. -/
def depthKvs : List (String × Json) → Nat
  | [] => 0
  | (_, v) :: kvs => max v.depth (depthKvs kvs)
end

/-- The function `digInJSONRaw` (lines 195-233): the recursion is given the
bound the nesting depth of the values of `data` allows. -/
def digInJSONRaw (ord : Nat → RawMap → List (String × Json)) (visits : Nat) (data : RawMap) :
    Option (List String × Nat) :=
  digFuel ord (depthKvs data + 2) visits data

/-- The function `parseServerAndHostFromRes` (lines 186-192).  `decode` is the
JSON syntax of package `encoding/json`: the value the bytes denote, `none` when
they are not a valid JSON text. -/
def parseServerAndHostFromRes (decode : String → Option Json)
    (ord : Nat → RawMap → List (String × Json)) (body : String) : Option (List String) :=
  match decode body with
  | none => some (splitTextData body)
  | some v =>
    let um := unmarshalMap v []
    if um.1 then some (splitTextData body)
    else (digInJSONRaw ord 0 um.2).map Prod.fst

/-- The record `rec` wrapped in single-key objects, the keys from the outermost
to the innermost: the shape of the documents of the nested-object property. -/
def wrapIn : List String → Json → Json
  | [], rec => rec
  | k :: ks, rec => .obj [(k, wrapIn ks rec)]

/-- Text assembled from a first token and further tokens, each preceded by its
separator. -/
def joinTokens (first : String) (rest : List (Char × String)) : String :=
  rest.foldl (fun acc st => acc ++ String.singleton st.1 ++ st.2) first

/-! ## Configuration, construction and the handler -/

/-- The type `config` (lines 74-101); the field `Type` is `ProxyType` here. -/
structure config where
  ListenAddr : String
  PredefinedProxies : List String
  ProxyType : String
  ValidPeriod : Nat
  ExcludeCountries : String
  ProviderAPIURLTemplate : String
  Method : String

/-- What the remote refill depends on outside the program: `fmt.Sprintf`, the
body of the response to the `k`-th request of a URL, the JSON syntax, and the
order in which the maps of the `k`-th response are visited.  A request that
fails is not modelled: the response is always there. -/
structure World where
  Sprintf : String → List String → String
  body : String → Nat → String
  decode : String → Option Json
  ord : Nat → Nat → RawMap → List (String × Json)

/-- The call `strings.Count(s, "%s")` on the characters of `s`. -/
def countVerbs : List Char → Nat
  | [] => 0
  | [_] => 0
  | c :: d :: rest =>
    if c = '%' ∧ d = 's' then countVerbs rest + 1 else countVerbs (d :: rest)

/-- The function `truncSprintf` (lines 239-245). -/
def truncSprintf (w : World) (s : String) (args : List String) : String :=
  let n := countVerbs s.data
  if n > args.length then w.Sprintf s args else w.Sprintf s (args.take n)

/-- The function `requestProxiesList` (lines 150-156) at its `k`-th call: the
body of the response goes through `parseServerAndHostFromRes`. -/
def requestProxiesList (w : World) (source : String) (k : Nat) : List String :=
  (parseServerAndHostFromRes w.decode (w.ord k) (w.body source k)).getD []

/-- The function `sanitizePredifinedList` (lines 175-184). -/
def sanitizePredifinedList (lib : UrlLib) (pxy : List String) : List String :=
  pxy.filterMap fun p => validProxyURL lib p ""

/-- The method `configure` (lines 25-43) on the receiver `p`: `none` is the
returned error, otherwise the receiver and the configuration as they are left. -/
def configure (lib : UrlLib) (w : World) (p : proxyProvider) (cfg : config) :
    Option (proxyProvider × config) :=
  let cfg := { cfg with PredefinedProxies := sanitizePredifinedList lib cfg.PredefinedProxies }
  if cfg.PredefinedProxies.length > 0 then
    some ({ p with refreshFunc := fun _ => cfg.PredefinedProxies }, cfg)
  else if cfg.ProviderAPIURLTemplate = "" then
    none
  else
    some ({ validPeriod := cfg.ValidPeriod,
            refreshFunc := fun k =>
              requestProxiesList w
                (truncSprintf w cfg.ProviderAPIURLTemplate [cfg.ProxyType, cfg.ExcludeCountries]) k },
          cfg)

/-- The function `newProxyProvider` (lines 135-148), up to the start of the
loop: the predefined list is reversed in place, then the zero value of
`proxyProvider` is configured.  The loop then starts from `initState`. -/
def newProxyProvider (lib : UrlLib) (w : World) (cfg : config) :
    Option (proxyProvider × config) :=
  configure lib w { validPeriod := 0, refreshFunc := fun _ => [] }
    { cfg with PredefinedProxies := cfg.PredefinedProxies.reverse }

/-- What the handler of lines 125-131 does with the response writer: the
status of the response, and the bytes handed to `res.Write` at line 130.  With
an error `http.Error` sets status 500 and writes the text of the error, and
`purl` is empty. -/
structure Response where
  status : Nat
  written : String
deriving DecidableEq

/-- The handler of lines 125-131 for the address `provider.next()` returned. -/
def handler (lib : UrlLib) (addr : String) (cfgType : String) : Response :=
  match validProxyURL lib addr cfgType with
  | none => { status := 500, written := "" }
  | some purl => { status := 200, written := purl }

/-- The maintenance step as the specification words it, with exact arithmetic:
the kept entries are none if the period is positive and `now` is strictly after
`lastUpdated` plus the period in minutes, and the incoming snapshot otherwise;
the published snapshot is the fetched list followed by the kept entries if at
most one is kept, and the kept entries, the refill source not invoked (`false`),
if more than one is kept. -/
def maintenanceSpec (validPeriod : Nat) (fetched : List String) (now lastUpdated : Int)
    (s : List String) : List String × Bool :=
  let kept : List String :=
    if validPeriod > 0 ∧ lastUpdated + (validPeriod : Int) * 60000000000 < now then [] else s
  if kept.length ≤ 1 then (fetched ++ kept, true) else (kept, false)

/-- A scalar or null: neither an object nor a list. -/
def Json.isLeaf : Json → Bool
  | .obj _ => false
  | .arr _ => false
  | _ => true

/-- A value in which the loop of `digInJSONRaw` finds no map to search: a scalar,
null, the empty object, the empty list, or a list whose first element is a
scalar or null. -/
def Json.inert : Json → Bool
  | .obj kvs => kvs.isEmpty
  | .arr [] => true
  | .arr (x :: _) => x.isLeaf
  | _ => true

/-- Every key of the entries other than `ip` and `port` has an inert value. -/
def flatKvs (kvs : List (String × Json)) : Bool :=
  kvs.all fun kv => decide (kv.1 = "ip") || decide (kv.1 = "port") || kv.2.inert

mutual
/-- Every object the search reaches has a single key, or has only inert values
under its keys other than `ip` and `port`; the search reaches the value itself,
the value under the single key of an object reached, and the first element of a
list reached. -/
def Json.steady : Json → Bool
  | .arr xs => steadyFirst xs
  | .obj kvs => flatKvs kvs || steadySingle kvs
  | _ => true
/-- The entries are a single entry with a steady value. -/
def steadySingle : List (String × Json) → Bool
  | [] => false
  | (_, v) :: rest => rest.isEmpty && v.steady
/-- The first element of the list, if any, is steady. -/
def steadyFirst : List Json → Bool
  | [] => true
  | x :: _ => x.steady
end

/-- The key of the entry is `ip` or `port`. -/
def isAddrKey (kv : String × Json) : Bool := decide (kv.1 = "ip") || decide (kv.1 = "port")

/-- Two sets of loop variables hold the same result and the same captured `ip`
and `port`. -/
def sameCapture (st st' : DigVars) : Prop :=
  st.result = st'.result ∧ st.ip = st'.ip ∧ st.port = st'.port

/-- The map carried between the iterations is nil and the list carried does not
start with an object or a list. -/
def nothingCarried (st : DigVars) : Prop :=
  st.mapOfRaws = [] ∧ ∀ x, st.listOfRaws.get? 0 = some x → x.isLeaf = true

/-- An order of visits that exchanges the second and the third entry of a map
of three entries and leaves every other map as it is. -/
def visitThirdSecond : Nat → RawMap → List (String × Json)
  | _, [a, b, c] => [a, c, b]
  | _, m => m

/-! ## Theorems -/

/-! ### The pool -/

theorem next_nil : next [] = some ("", []) := rfl

theorem next_concat (r : List String) (e : String) : next (r ++ [e]) = some (e, r) := by
  cases r with
  | nil => rfl
  | cons x xs =>
    have hlen : ((x :: xs) ++ [e]).length = xs.length + 2 := by simp
    have hget : ((x :: xs) ++ [e]).get? (xs.length + 1) = some e := by
      simp
    have htake : ((x :: xs) ++ [e]).take (xs.length + 1) = x :: xs := by
      simp
    unfold next
    simp only [hlen]
    have h1 : xs.length + 2 > 1 := by omega
    simp only [h1, if_true]
    have h2 : xs.length + 2 - 1 = xs.length + 1 := by omega
    rw [h2, hget, htake]
    rfl

theorem takes_reverse (s : List String) : takes s.length s = some (s.reverse, []) := by
  induction s using List.reverseRecOn with
  | nil => rfl
  | append_singleton r e ih =>
    have hlen : (r ++ [e]).length = r.length + 1 := by simp
    rw [hlen]
    simp only [takes, next_concat, ih, List.reverse_append, List.reverse_cons, List.reverse_nil,
      List.nil_append, List.singleton_append]

/-- C1. LIFO order: as many consecutive calls of next as the snapshot has
addresses, with no refill in between, return the addresses of the snapshot in
reverse order, last element first, and leave the empty snapshot; on [a, b, c]
they return c, then b, then a. -/
theorem C1_lifo_order :
    (∀ s : List String, takes s.length s = some (s.reverse, [])) ∧
    (∀ a b c : String, takes 3 [a, b, c] = some ([c, b, a], [])) :=
  ⟨takes_reverse, fun a b c => takes_reverse [a, b, c]⟩

/-- C2. One call of next removes exactly the address it returns: on a non-empty
snapshot s it returns an address e and sends back r with r ++ [e] = s; on the
empty snapshot it returns the empty string and sends back the empty snapshot;
and when s has at most one element the snapshot sent back is empty. -/
theorem C2_next_removes_returned (s : List String) :
    (s ≠ [] → ∃ e r, next s = some (e, r) ∧ r ++ [e] = s) ∧
    next [] = some ("", []) ∧
    (s.length ≤ 1 → ∃ e, next s = some (e, [])) := by
  refine ⟨?_, rfl, ?_⟩
  · intro hs
    obtain ⟨r, e, rfl⟩ : ∃ r e, s = r ++ [e] := by
      rcases List.eq_nil_or_concat s with h | ⟨r, e, h⟩
      · exact absurd h hs
      · exact ⟨r, e, by simpa using h⟩
    exact ⟨e, r, next_concat r e, rfl⟩
  · intro hs
    match s, hs with
    | [], _ => exact ⟨"", rfl⟩
    | [x], _ => exact ⟨x, rfl⟩
    | _ :: _ :: _, h => simp at h

theorem C2_next_removes_returned_witness :
    ∃ e r, next ["a", "b"] = some (e, r) ∧ r ++ [e] = ["a", "b"] :=
  (C2_next_removes_returned ["a", "b"]).1 (by simp)

set_option maxRecDepth 100000 in
/-- C3. With a validity period of one minute the loop does not discard what it
holds after two idle minutes.  The refill source gives [a, b, c] on its first
invocation and [fresh] afterwards; the first call of next is served at instant
0 and sends the remainder back at once, the second call comes two minutes
later.  The second call returns b, an address the pool held before the idle
period, and the refill source has been invoked once only.  The check of line 63
is made when the loop receives the remainder, at the instant it has just
recorded as lastUpdated, and there it never holds. -/
theorem C3_ttl_not_observed :
    (∃ st, run { validPeriod := 1,
                 refreshFunc := fun k => if k = 0 then ["a", "b", "c"] else ["fresh"] }
          (initState 0) [(0, 0), (0, 120000000000)]
        = some ([{ published := ["a", "b", "c"], addr := "c", remainder := ["a", "b"] },
                 { published := ["a", "b"], addr := "b", remainder := ["a"] }], st)
        ∧ st.calls = 1 ∧ st.inFlight = ["a"]) ∧
    (∀ t : Int, expired 1 t t = false) := by
  refine ⟨⟨{ inFlight := ["a"], lastUpdated := 120000000000, calls := 1 }, ?_, rfl, rfl⟩, ?_⟩
  · decide
  intro t
  have h : validDuration 1 = 60000000000 := by decide
  simp [expired, h]

theorem iter_validPeriod_zero (p : proxyProvider) (calls : Nat) (lastUpdated now : Int)
    (pxy : List String) (h0 : p.validPeriod = 0) :
    handleExhaustmentIter p calls lastUpdated now pxy
      = if pxy.length ≤ 1 then (p.refreshFunc calls ++ pxy, calls + 1) else (pxy, calls) := by
  simp [handleExhaustmentIter, expired, h0]

theorem iter_published_cases (p : proxyProvider) (calls : Nat) (lastUpdated now : Int)
    (pxy : List String) :
    (∃ rest, rest.length ≤ 1 ∧ (rest = [] ∨ rest = pxy) ∧
      handleExhaustmentIter p calls lastUpdated now pxy
        = (p.refreshFunc calls ++ rest, calls + 1)) ∨
    (1 < pxy.length ∧ handleExhaustmentIter p calls lastUpdated now pxy = (pxy, calls)) := by
  unfold handleExhaustmentIter
  by_cases hexp : expired p.validPeriod now lastUpdated = true
  · left
    exact ⟨[], by simp, Or.inl rfl, by simp [hexp]⟩
  · by_cases hlen : pxy.length ≤ 1
    · left
      exact ⟨pxy, hlen, Or.inr rfl, by simp [hexp, hlen]⟩
    · right
      exact ⟨by omega, by simp [hexp, hlen]⟩

theorem next_of_nonempty (s : List String) (hne : s ≠ []) (hs : ∀ a ∈ s, a ≠ "") :
    ∃ e r, next s = some (e, r) ∧ e ≠ "" ∧ ∀ a ∈ r, a ≠ "" := by
  obtain ⟨r, e, rfl⟩ : ∃ r e, s = r ++ [e] := by
    rcases List.eq_nil_or_concat s with h | ⟨r, e, h⟩
    · exact absurd h hne
    · exact ⟨r, e, by simpa using h⟩
  refine ⟨e, r, next_concat r e, hs e (by simp), ?_⟩
  intro a ha
  exact hs a (by simp [ha])

theorem round_of_nonempty_source (p : proxyProvider)
    (hsrc : ∀ k, p.refreshFunc k ≠ [] ∧ ∀ a ∈ p.refreshFunc k, a ≠ "")
    (st : RunState) (hst : ∀ a ∈ st.inFlight, a ≠ "") (now handed : Int) :
    ∃ log st', roundStep p st now handed = some (log, st') ∧ log.addr ≠ "" ∧
      ∀ a ∈ st'.inFlight, a ≠ "" := by
  have hpub : (handleExhaustmentIter p st.calls st.lastUpdated now st.inFlight).1 ≠ [] ∧
      ∀ a ∈ (handleExhaustmentIter p st.calls st.lastUpdated now st.inFlight).1, a ≠ "" := by
    rcases iter_published_cases p st.calls st.lastUpdated now st.inFlight with
      ⟨rest, _, hrest, heq⟩ | ⟨hlen, heq⟩
    · rw [heq]
      refine ⟨by simp [(hsrc st.calls).1], ?_⟩
      intro a ha
      rcases List.mem_append.mp ha with h | h
      · exact (hsrc st.calls).2 a h
      · rcases hrest with hr | hr
        · simp [hr] at h
        · exact hst a (hr ▸ h)
    · rw [heq]
      refine ⟨?_, hst⟩
      intro h
      have h' : st.inFlight = [] := h
      rw [h'] at hlen
      simp at hlen
  obtain ⟨e, r, hnext, he, hr⟩ := next_of_nonempty _ hpub.1 hpub.2
  refine ⟨{ published := (handleExhaustmentIter p st.calls st.lastUpdated now st.inFlight).1,
             addr := e, remainder := r },
          { inFlight := r, lastUpdated := handed,
            calls := (handleExhaustmentIter p st.calls st.lastUpdated now st.inFlight).2 },
          ?_, he, hr⟩
  simp only [roundStep, hnext]

theorem run_of_nonempty_source (p : proxyProvider)
    (hsrc : ∀ k, p.refreshFunc k ≠ [] ∧ ∀ a ∈ p.refreshFunc k, a ≠ "")
    (clock : List (Int × Int)) :
    ∀ st : RunState, (∀ a ∈ st.inFlight, a ≠ "") →
      ∃ logs st', run p st clock = some (logs, st') ∧ logs.length = clock.length ∧
        ∀ l ∈ logs, l.addr ≠ "" := by
  induction clock with
  | nil => intro st _; exact ⟨[], st, rfl, rfl, by simp⟩
  | cons c clock ih =>
    intro st hst
    obtain ⟨now, handed⟩ := c
    obtain ⟨log, st1, hround, hlog, hst1⟩ := round_of_nonempty_source p hsrc st hst now handed
    obtain ⟨logs, st2, hrun, hlen, hlogs⟩ := ih st1 hst1
    refine ⟨log :: logs, st2, ?_, by simp [hlen], ?_⟩
    · simp only [run, hround, hrun]
    · intro l hl
      rcases List.mem_cons.mp hl with h | h
      · exact h ▸ hlog
      · exact hlogs l h

/-- C4. A non-empty refill source means the pool is never observed exhausted:
in every run that starts from the empty snapshot and alternates one iteration
of the loop with one call of next, if every invocation of the refill source
returns a non-empty list of non-empty addresses, then every call of next
returns (no index is out of range) and returns a non-empty address, for every
validity period and every sequence of clock readings. -/
theorem C4_nonempty_source_never_exhausted (p : proxyProvider) (t0 : Int)
    (clock : List (Int × Int))
    (hsrc : ∀ k, p.refreshFunc k ≠ [] ∧ ∀ a ∈ p.refreshFunc k, a ≠ "") :
    ∃ logs st, run p (initState t0) clock = some (logs, st) ∧
      logs.length = clock.length ∧ ∀ l ∈ logs, l.addr ≠ "" :=
  run_of_nonempty_source p hsrc clock (initState t0) (by simp [initState])

theorem C4_nonempty_source_never_exhausted_witness :
    ∃ logs st, run { validPeriod := 1, refreshFunc := fun _ => ["socks5://1.1.1.1:1080"] }
        (initState 0) [(5, 7), (70000000000, 70000000001)] = some (logs, st) ∧
      logs.length = 2 ∧ ∀ l ∈ logs, l.addr ≠ "" :=
  C4_nonempty_source_never_exhausted
    { validPeriod := 1, refreshFunc := fun _ => ["socks5://1.1.1.1:1080"] } 0
    [(5, 7), (70000000000, 70000000001)]
    (fun _ => ⟨by simp, by simp⟩)

theorem round_of_empty_source (p : proxyProvider) (hsrc : ∀ k, p.refreshFunc k = [])
    (st : RunState) (hst : st.inFlight = []) (now handed : Int) :
    roundStep p st now handed
      = some ({ published := [], addr := "", remainder := [] },
              { inFlight := [], lastUpdated := handed, calls := st.calls + 1 }) := by
  have hiter : handleExhaustmentIter p st.calls st.lastUpdated now st.inFlight
      = ([], st.calls + 1) := by
    rcases iter_published_cases p st.calls st.lastUpdated now st.inFlight with
      ⟨rest, _, hrest, heq⟩ | ⟨hlen, _⟩
    · rw [heq, hsrc]
      rcases hrest with hr | hr
      · simp [hr]
      · simp [hr, hst]
    · simp [hst] at hlen
  simp only [roundStep, hiter, next_nil]

theorem run_of_empty_source (p : proxyProvider) (hsrc : ∀ k, p.refreshFunc k = [])
    (clock : List (Int × Int)) :
    ∀ st : RunState, st.inFlight = [] →
      ∃ st', run p st clock
          = some (List.replicate clock.length { published := [], addr := "", remainder := [] },
                  st') ∧ st'.inFlight = [] := by
  induction clock with
  | nil => intro st hst; exact ⟨st, rfl, hst⟩
  | cons c clock ih =>
    intro st hst
    obtain ⟨now, handed⟩ := c
    obtain ⟨st2, hrun, hst2⟩ := ih { inFlight := [], lastUpdated := handed, calls := st.calls + 1 } rfl
    refine ⟨st2, ?_, hst2⟩
    simp only [run, round_of_empty_source p hsrc st hst now handed, hrun, List.length_cons,
      List.replicate_succ]

/-- C5. Empty stays empty: starting from the empty snapshot with a refill source
that returns the empty list on every invocation, in every run alternating one
iteration of the loop and one call of next, for every validity period and all
clock readings, every step is defined (no index is out of range), every
published snapshot is empty, every call of next returns the empty string and
every snapshot sent back is empty. -/
theorem C5_empty_stays_empty (p : proxyProvider) (t0 : Int) (clock : List (Int × Int))
    (hsrc : ∀ k, p.refreshFunc k = []) :
    ∃ st, run p (initState t0) clock
        = some (List.replicate clock.length { published := [], addr := "", remainder := [] },
                st) ∧ st.inFlight = [] :=
  run_of_empty_source p hsrc clock (initState t0) rfl

theorem C5_empty_stays_empty_witness :
    ∃ st, run { validPeriod := 3, refreshFunc := fun _ => [] } (initState 0)
        [(1, 2), (500000000000, 500000000001)]
        = some (List.replicate 2 { published := [], addr := "", remainder := [] }, st) ∧
      st.inFlight = [] :=
  C5_empty_stays_empty { validPeriod := 3, refreshFunc := fun _ => [] } 0
    [(1, 2), (500000000000, 500000000001)] (fun _ => rfl)

/-- C6. Validity period 0 disables time-based expiry: when validPeriod = 0, for
every incoming snapshot, every pair of clock readings and every number of
earlier invocations, the loop iteration discards no entry: the published
snapshot has the incoming snapshot as its suffix, and when the incoming
snapshot holds more than one address it is published unchanged and the refill
source is not invoked. -/
theorem C6_zero_period_no_expiry (p : proxyProvider) (calls : Nat) (lastUpdated now : Int)
    (pxy : List String) (h0 : p.validPeriod = 0) :
    pxy <:+ (handleExhaustmentIter p calls lastUpdated now pxy).1 ∧
    (1 < pxy.length → handleExhaustmentIter p calls lastUpdated now pxy = (pxy, calls)) := by
  rw [iter_validPeriod_zero p calls lastUpdated now pxy h0]
  by_cases hlen : pxy.length ≤ 1
  · simp only [hlen, if_true]
    exact ⟨List.suffix_append _ _, fun h => absurd hlen (by omega)⟩
  · simp only [hlen, if_false]
    exact ⟨List.suffix_refl _, fun _ => trivial⟩

theorem C6_zero_period_no_expiry_witness :
    ["a", "b"] <:+ (handleExhaustmentIter { validPeriod := 0, refreshFunc := fun _ => ["x"] }
        0 0 9000000000000 ["a", "b"]).1 ∧
    (1 < ["a", "b"].length →
      handleExhaustmentIter { validPeriod := 0, refreshFunc := fun _ => ["x"] }
        0 0 9000000000000 ["a", "b"] = (["a", "b"], 0)) :=
  C6_zero_period_no_expiry { validPeriod := 0, refreshFunc := fun _ => ["x"] }
    0 0 9000000000000 ["a", "b"] rfl

/-! ### The extractor -/

theorem append_colon_ne (s : String) : s ++ ":" ≠ "" := by
  intro h
  have hlen := congrArg String.length h
  simp only [String.length_append] at hlen
  have h1 : ":".length = 1 := by decide
  have h0 : "".length = 0 := by decide
  omega

theorem ne_empty_of_isValidNumber (lit : String) (h : isValidNumber lit = true) : lit ≠ "" := by
  intro hl
  subst hl
  simp [isValidNumber] at h

theorem perm_pair {α : Type} (a b : α) (l : List α) (h : l.Perm [a, b]) :
    l = [a, b] ∨ l = [b, a] := by
  match l, h with
  | [], h => simpa using h.length_eq
  | [_], h => simpa using h.length_eq
  | _ :: _ :: _ :: _, h => simpa using h.length_eq
  | [x, y], h =>
    have hx : x ∈ [a, b] := h.subset (by simp)
    rcases List.mem_pair.mp hx with rfl | rfl
    · have h2 : [y].Perm [b] := (List.perm_cons x).mp h
      have hy : y = b := by simpa using h2.subset (List.mem_singleton_self y)
      exact Or.inl (by rw [hy])
    · have h2 : [y].Perm [a] := (List.perm_cons x).mp (h.trans (List.Perm.swap x a []))
      have hy : y = a := by simpa using h2.subset (List.mem_singleton_self y)
      exact Or.inr (by rw [hy])

theorem unmarshalNumber_port (lit : String) (pv : Json) (hlit : isValidNumber lit = true)
    (hpv : pv = .num lit ∨ pv = .str lit) : unmarshalNumber pv "" = lit := by
  rcases hpv with rfl | rfl
  · rfl
  · simp [unmarshalNumber, hlit]

theorem digLoop_record (dig : Nat → RawMap → Option (List String × Nat)) (s lit : String)
    (pv : Json) (hlit : isValidNumber lit = true) (hpv : pv = .num lit ∨ pv = .str lit)
    (n : Nat) (l : List (String × Json))
    (hl : l.Perm [("ip", .str s), ("port", pv)]) :
    digLoop dig (digInit n) l = some ⟨[s ++ ":" ++ lit], "", "", [], [], n⟩ := by
  have hport := unmarshalNumber_port lit pv hlit hpv
  have hne := ne_empty_of_isValidNumber lit hlit
  have hcol := append_colon_ne s
  rcases perm_pair _ _ l hl with rfl | rfl
  · simp only [digLoop, digBody, digInit, unmarshalString, hport]
    simp [hne, hcol]
  · simp only [digLoop, digBody, digInit, unmarshalString, hport]
    simp [hne, hcol]

theorem unmarshalMap_record (s : String) (pv rec : Json)
    (hrec : rec = .obj [("ip", .str s), ("port", pv)] ∨ rec = .obj [("port", pv), ("ip", .str s)]) :
    (unmarshalMap rec []).1 = false ∧
    (unmarshalMap rec []).2.Perm [("ip", .str s), ("port", pv)] := by
  rcases hrec with rfl | rfl
  · refine ⟨rfl, ?_⟩
    have h : (unmarshalMap (.obj [("ip", .str s), ("port", pv)]) []).2
        = [("ip", .str s), ("port", pv)] := by
      simp [unmarshalMap, mapSet]
    rw [h]
  · refine ⟨rfl, ?_⟩
    have h : (unmarshalMap (.obj [("port", pv), ("ip", .str s)]) []).2
        = [("port", pv), ("ip", .str s)] := by
      simp [unmarshalMap, mapSet]
    rw [h]
    exact List.Perm.swap _ _ _

theorem dig_wrapped (ord : Nat → RawMap → List (String × Json))
    (hord : ∀ n m, (ord n m).Perm m) (s lit : String) (pv rec : Json)
    (hlit : isValidNumber lit = true) (hpv : pv = .num lit ∨ pv = .str lit)
    (hrec : rec = .obj [("ip", .str s), ("port", pv)] ∨ rec = .obj [("port", pv), ("ip", .str s)]) :
    ∀ ks : List String, (∀ k ∈ ks, k ≠ "ip" ∧ k ≠ "port") →
      (unmarshalMap (wrapIn ks rec) []).1 = false ∧
      ∀ fuel n, ks.length + 1 ≤ fuel →
        ∃ n', digFuel ord fuel n (unmarshalMap (wrapIn ks rec) []).2
          = some ([s ++ ":" ++ lit], n') := by
  intro ks
  induction ks with
  | nil =>
    intro _
    obtain ⟨herr, hperm⟩ := unmarshalMap_record s pv rec hrec
    refine ⟨herr, ?_⟩
    intro fuel n hfuel
    obtain ⟨f, rfl⟩ : ∃ f, fuel = f + 1 := ⟨fuel - 1, by simp at hfuel; omega⟩
    refine ⟨n + 1, ?_⟩
    have hloop := digLoop_record (digFuel ord f) s lit pv hlit hpv (n + 1)
      (ord n (unmarshalMap (wrapIn [] rec) []).2) ((hord _ _).trans hperm)
    simp only [digFuel, hloop]
  | cons k ks ih =>
    intro hks
    have hk : k ≠ "ip" ∧ k ≠ "port" := hks k (by simp)
    obtain ⟨herr, hdig⟩ := ih (fun k' hk' => hks k' (by simp [hk']))
    have hmap : unmarshalMap (wrapIn (k :: ks) rec) [] = (false, [(k, wrapIn ks rec)]) := by
      simp [wrapIn, unmarshalMap, mapSet]
    refine ⟨by rw [hmap], ?_⟩
    intro fuel n hfuel
    obtain ⟨f, rfl⟩ : ∃ f, fuel = f + 1 := ⟨fuel - 1, by simp at hfuel; omega⟩
    obtain ⟨n', hn'⟩ := hdig f (n + 1) (by simpa using hfuel)
    refine ⟨n', ?_⟩
    have hvisit : ord n [(k, wrapIn ks rec)] = [(k, wrapIn ks rec)] :=
      List.perm_singleton.mp (hord n _)
    rw [hmap]
    simp only [digFuel, hvisit, digLoop, digBody, digInit, hk.1, hk.2, if_false, herr]
    simp [hn']

theorem depth_wrapIn (ks : List String) (rec : Json) :
    (wrapIn ks rec).depth = ks.length + rec.depth := by
  induction ks with
  | nil => simp [wrapIn]
  | cons k ks ih =>
    simp only [wrapIn, Json.depth, depthKvs, ih, List.length_cons]
    omega

/-- C7. Extractor, nested object: for every JSON string s and every JSON number
or numeric JSON string with text lit, a document that wraps the record with the
two keys ip (value s) and port (value lit) in any number of single-key objects
whose keys are neither ip nor port is extracted by parseServerAndHostFromRes to
exactly the one-element list [s ++ ":" ++ lit], for every order in which the
keys of each map are visited and for both orders of the two keys in the
document. -/
theorem C7_nested_object (decode : String → Option Json)
    (ord : Nat → RawMap → List (String × Json)) (body s lit : String) (pv rec : Json)
    (ks : List String)
    (hord : ∀ n m, (ord n m).Perm m)
    (hlit : isValidNumber lit = true)
    (hpv : pv = .num lit ∨ pv = .str lit)
    (hrec : rec = .obj [("ip", .str s), ("port", pv)] ∨ rec = .obj [("port", pv), ("ip", .str s)])
    (hks : ∀ k ∈ ks, k ≠ "ip" ∧ k ≠ "port")
    (hdoc : decode body = some (wrapIn ks rec)) :
    parseServerAndHostFromRes decode ord body = some [s ++ ":" ++ lit] := by
  obtain ⟨herr, hdig⟩ := dig_wrapped ord hord s lit pv rec hlit hpv hrec ks hks
  have hfuel : ks.length + 1 ≤ depthKvs (unmarshalMap (wrapIn ks rec) []).2 + 2 := by
    cases ks with
    | nil => simp
    | cons k ks =>
      have hmap : unmarshalMap (wrapIn (k :: ks) rec) [] = (false, [(k, wrapIn ks rec)]) := by
        simp [wrapIn, unmarshalMap, mapSet]
      rw [hmap]
      simp only [depthKvs, depth_wrapIn, List.length_cons]
      omega
  obtain ⟨n', hn'⟩ := hdig _ 0 hfuel
  simp only [parseServerAndHostFromRes, hdoc, herr, digInJSONRaw, hn']
  simp

theorem C7_nested_object_witness :
    parseServerAndHostFromRes
      (fun b => if b = "\x7b\"data\":\x7b\"ip\":\"1.2.3.4\",\"port\":8080\x7d\x7d" then
        some (.obj [("data", .obj [("ip", .str "1.2.3.4"), ("port", .num "8080")])]) else none)
      (fun _ m => m)
      "\x7b\"data\":\x7b\"ip\":\"1.2.3.4\",\"port\":8080\x7d\x7d"
      = some ["1.2.3.4" ++ ":" ++ "8080"] :=
  C7_nested_object _ (fun _ m => m) _ "1.2.3.4" "8080" (.num "8080")
    (.obj [("ip", .str "1.2.3.4"), ("port", .num "8080")]) ["data"]
    (fun _ m => List.Perm.refl m) (by decide) (Or.inl rfl) (Or.inl rfl) (by decide) (by simp [wrapIn])

theorem dig_list_wrapper (ord : Nat → RawMap → List (String × Json))
    (hord : ∀ n m, (ord n m).Perm m) (s lit k : String) (pv rec : Json)
    (hlit : isValidNumber lit = true) (hpv : pv = .num lit ∨ pv = .str lit)
    (hrec : rec = .obj [("ip", .str s), ("port", pv)] ∨ rec = .obj [("port", pv), ("ip", .str s)])
    (hk : k ≠ "ip" ∧ k ≠ "port") (fuel n : Nat) :
    ∃ n', digFuel ord (fuel + 2) n [(k, .arr [rec])]
      = some ([s ++ ":" ++ lit, s ++ ":" ++ lit], n') := by
  obtain ⟨_, hdig⟩ := dig_wrapped ord hord s lit pv rec hlit hpv hrec [] (by simp)
  simp only [wrapIn] at hdig
  obtain ⟨n1, hn1⟩ := hdig (fuel + 1) (n + 1) (by simp)
  obtain ⟨n2, hn2⟩ := hdig (fuel + 1) n1 (by simp)
  refine ⟨n2, ?_⟩
  have hvisit : ord n [(k, .arr [rec])] = [(k, .arr [rec])] :=
    List.perm_singleton.mp (hord n _)
  have hmap : unmarshalMap (.arr [rec]) [] = (true, []) := rfl
  have hlist : unmarshalList (.arr [rec]) [] = (false, [rec]) := rfl
  have hstep : digFuel ord (fuel + 2) n [(k, .arr [rec])]
      = match digLoop (digFuel ord (fuel + 1)) (digInit (n + 1)) (ord n [(k, .arr [rec])]) with
        | none => none
        | some st => some (st.result, st.visits) := rfl
  rw [hstep]
  simp only [hvisit, digLoop, digBody, digInit, hk.1, hk.2, if_false, hmap, hlist]
  simp [hn1, hn2]

/-- C8. Extractor, list wrapper: the document with the single key results whose
value is a one-element list holding the record with ip 5.6.7.8 and port "3128"
is extracted to a list of two equal addresses, not one, whichever key of the
record is visited first: after the recursive call of line 223 for the first
element of the list, the test of line 226 holds again and the same map is
searched a second time. -/
theorem C8_list_wrapper_emits_twice :
    parseServerAndHostFromRes
      (fun b => if b = "\x7b\"results\":[\x7b\"ip\":\"5.6.7.8\",\"port\":\"3128\"\x7d]\x7d" then
        some (.obj [("results", .arr [.obj [("ip", .str "5.6.7.8"), ("port", .str "3128")]])])
        else none)
      (fun _ m => m)
      "\x7b\"results\":[\x7b\"ip\":\"5.6.7.8\",\"port\":\"3128\"\x7d]\x7d"
      = some ["5.6.7.8:3128", "5.6.7.8:3128"] ∧
    parseServerAndHostFromRes
      (fun b => if b = "\x7b\"results\":[\x7b\"ip\":\"5.6.7.8\",\"port\":\"3128\"\x7d]\x7d" then
        some (.obj [("results", .arr [.obj [("ip", .str "5.6.7.8"), ("port", .str "3128")]])])
        else none)
      (fun _ m => m.reverse)
      "\x7b\"results\":[\x7b\"ip\":\"5.6.7.8\",\"port\":\"3128\"\x7d]\x7d"
      = some ["5.6.7.8:3128", "5.6.7.8:3128"] := by
  constructor <;> decide

/-- The list wrapper in general: for every record, every key of the wrapper
other than ip and port and every order of visits, the address is emitted
twice. -/
theorem list_wrapper_emits_twice (decode : String → Option Json)
    (ord : Nat → RawMap → List (String × Json)) (body s lit k : String) (pv rec : Json)
    (hord : ∀ n m, (ord n m).Perm m)
    (hlit : isValidNumber lit = true)
    (hpv : pv = .num lit ∨ pv = .str lit)
    (hrec : rec = .obj [("ip", .str s), ("port", pv)] ∨ rec = .obj [("port", pv), ("ip", .str s)])
    (hk : k ≠ "ip" ∧ k ≠ "port")
    (hdoc : decode body = some (.obj [(k, .arr [rec])])) :
    parseServerAndHostFromRes decode ord body = some [s ++ ":" ++ lit, s ++ ":" ++ lit] := by
  have hmap : unmarshalMap (.obj [(k, .arr [rec])]) [] = (false, [(k, .arr [rec])]) := by
    simp [unmarshalMap, mapSet]
  have hdepth : depthKvs [(k, Json.arr [rec])] + 2 = (depthList [rec] + 1) + 2 := by
    simp [depthKvs, Json.depth]
  obtain ⟨n', hn'⟩ := dig_list_wrapper ord hord s lit k pv rec hlit hpv hrec hk
    (depthList [rec] + 1) 0
  simp only [parseServerAndHostFromRes, hdoc, hmap, digInJSONRaw, hdepth, hn']
  simp

/-! ### Plain text and addresses -/

theorem dropWhile_of_head {p : Char → Bool} (l : List Char)
    (h : ∀ c, l.head? = some c → p c = false) : l.dropWhile p = l := by
  cases l with
  | nil => rfl
  | cons c cs => simp [List.dropWhile, h c rfl]

theorem Trim_of_ends (s : String) (cutset : List Char)
    (hfirst : ∀ c, s.data.head? = some c → c ∉ cutset)
    (hlast : ∀ c, s.data.getLast? = some c → c ∉ cutset) : Trim s cutset = s := by
  have h1 : s.data.dropWhile (fun c => decide (c ∈ cutset)) = s.data :=
    dropWhile_of_head _ (fun c hc => by simpa using hfirst c hc)
  have h2 : s.data.reverse.dropWhile (fun c => decide (c ∈ cutset)) = s.data.reverse :=
    dropWhile_of_head _ (fun c hc => by
      rw [List.head?_reverse] at hc
      simpa using hlast c hc)
  unfold Trim
  rw [h1, h2, List.reverse_reverse]

theorem splitChars_no_sep (sep : Char) (t : List Char) (ht : sep ∉ t) :
    splitChars sep t = [t] := by
  induction t with
  | nil => rfl
  | cons c cs ih =>
    have hc : c ≠ sep := fun h => ht (by simp [h])
    have hcs : sep ∉ cs := fun h => ht (by simp [h])
    simp [splitChars, hc, ih hcs]

theorem splitChars_append_sep (sep : Char) (t l : List Char) (ht : sep ∉ t) :
    splitChars sep (t ++ sep :: l) = t :: splitChars sep l := by
  induction t with
  | nil => simp [splitChars]
  | cons c cs ih =>
    have hc : c ≠ sep := fun h => ht (by simp [h])
    have hcs : sep ∉ cs := fun h => ht (by simp [h])
    simp [splitChars, hc, ih hcs]

theorem joinTokens_data (rest : List (Char × String)) :
    ∀ first : String, (joinTokens first rest).data
      = first.data ++ (rest.map fun st => st.1 :: st.2.data).flatten := by
  induction rest with
  | nil => intro first; simp [joinTokens]
  | cons st rest ih =>
    intro first
    have h := ih (first ++ String.singleton st.1 ++ st.2)
    simp only [joinTokens, List.foldl_cons] at h ⊢
    rw [h]
    simp [String.data_append, String.singleton]

theorem map_comma_of_token (t : List Char) (ht : ',' ∉ t) :
    t.map (fun c => if c = ',' then '\n' else c) = t := by
  induction t with
  | nil => rfl
  | cons c cs ih =>
    have hc : c ≠ ',' := fun h => ht (by simp [h])
    have hcs : ',' ∉ cs := fun h => ht (by simp [h])
    simp [hc, ih hcs]

theorem split_joined (rest : List (Char × String))
    (hsep : ∀ st ∈ rest, st.1 = ',' ∨ st.1 = '\n')
    (hrest : ∀ st ∈ rest, ',' ∉ st.2.data ∧ '\n' ∉ st.2.data) :
    ∀ first : List Char, ',' ∉ first → '\n' ∉ first →
      splitChars '\n' ((first ++ (rest.map fun st => st.1 :: st.2.data).flatten).map
          fun c => if c = ',' then '\n' else c)
        = first :: rest.map fun st => st.2.data := by
  induction rest with
  | nil =>
    intro first hc hn
    simp [map_comma_of_token first hc, splitChars_no_sep '\n' first hn]
  | cons st rest ih =>
    intro first hc hn
    have hst := hrest st (by simp)
    have hmapsep : (if st.1 = ',' then '\n' else st.1) = '\n' := by
      rcases hsep st (by simp) with h | h <;> simp [h]
    have h := ih (fun x hx => hsep x (by simp [hx])) (fun x hx => hrest x (by simp [hx]))
      st.2.data hst.1 hst.2
    simp only [List.map_cons, List.flatten_cons, List.map_append, List.cons_append,
      List.append_assoc, map_comma_of_token first hc, hmapsep] at h ⊢
    rw [splitChars_append_sep '\n' first _ hn]
    rw [h]

theorem splitTextData_joined (first : String) (rest : List (Char × String))
    (hfirst : ',' ∉ first.data ∧ '\n' ∉ first.data)
    (hrest : ∀ st ∈ rest, ',' ∉ st.2.data ∧ '\n' ∉ st.2.data)
    (hsep : ∀ st ∈ rest, st.1 = ',' ∨ st.1 = '\n')
    (hstart : ∀ c, (joinTokens first rest).data.head? = some c → c ∉ ['\n', '\t', ' '])
    (hend : ∀ c, (joinTokens first rest).data.getLast? = some c → c ∉ ['\n', '\t', ' ']) :
    splitTextData (joinTokens first rest) = first :: rest.map Prod.snd := by
  unfold splitTextData
  rw [Trim_of_ends _ _ hstart hend]
  simp only [Split, ReplaceAll, joinTokens_data,
    split_joined rest hsep hrest first.data hfirst.1 hfirst.2, List.map_cons, List.map_map]
  congr 1

/-- C9, as stated, fails: the tokens "" and "a" joined with a newline give the
two bytes newline, a.  No token contains a comma or a newline, the first token
does not start and the last does not end with a space, a tab or a newline, and
the bytes are not JSON (the decoder answers none).  The leading newline is cut
by strings.Trim before the split, so the result is the single token "a" and
the empty first token is lost. -/
theorem C9_plain_text_counterexample :
    joinTokens "" [('\n', "a")] = "\na" ∧
    (∀ t ∈ ["", "a"], ',' ∉ t.data ∧ '\n' ∉ t.data) ∧
    (∀ c, ("" : String).data.head? = some c → c ∉ ['\n', '\t', ' ']) ∧
    (∀ c, ("a" : String).data.getLast? = some c → c ∉ ['\n', '\t', ' ']) ∧
    parseServerAndHostFromRes (fun _ => none) (fun _ m => m) (joinTokens "" [('\n', "a")])
      = some ["a"] ∧
    parseServerAndHostFromRes (fun _ => none) (fun _ m => m) (joinTokens "" [('\n', "a")])
      ≠ some ["", "a"] := by
  refine ⟨by decide, by decide, by simp, ?_, by decide, by decide⟩
  intro c hc
  have h : c = 'a' := by
    have h' : some 'a' = some c := hc
    exact (Option.some.inj h').symm
  subst h
  decide

/-- C9, amended. Extractor, plain-text fallback: for every non-empty list of
tokens, none containing a comma or a newline, joined with any mix of commas and
newlines into a text that neither starts nor ends with a space, a tab or a
newline and on which json.Unmarshal into the map reports an error (the bytes
are not JSON, or denote a value that is neither an object nor null),
parseServerAndHostFromRes returns exactly that list of tokens in order. -/
theorem C9_plain_text_fallback (decode : String → Option Json)
    (ord : Nat → RawMap → List (String × Json)) (first : String) (rest : List (Char × String))
    (hfirst : ',' ∉ first.data ∧ '\n' ∉ first.data)
    (hrest : ∀ st ∈ rest, ',' ∉ st.2.data ∧ '\n' ∉ st.2.data)
    (hsep : ∀ st ∈ rest, st.1 = ',' ∨ st.1 = '\n')
    (hstart : ∀ c, (joinTokens first rest).data.head? = some c → c ∉ ['\n', '\t', ' '])
    (hend : ∀ c, (joinTokens first rest).data.getLast? = some c → c ∉ ['\n', '\t', ' '])
    (hjson : ∀ v, decode (joinTokens first rest) = some v → (unmarshalMap v []).1 = true) :
    parseServerAndHostFromRes decode ord (joinTokens first rest)
      = some (first :: rest.map Prod.snd) := by
  have hsplit := splitTextData_joined first rest hfirst hrest hsep hstart hend
  unfold parseServerAndHostFromRes
  cases hdec : decode (joinTokens first rest) with
  | none => simp [hsplit]
  | some v => simp [hjson v hdec, hsplit]

theorem C9_plain_text_fallback_witness :
    parseServerAndHostFromRes (fun _ => none) (fun _ m => m)
      (joinTokens "1.1.1.1:80" [(',', "2.2.2.2:81")]) = some ["1.1.1.1:80", "2.2.2.2:81"] :=
  C9_plain_text_fallback (fun _ => none) (fun _ m => m) "1.1.1.1:80" [(',', "2.2.2.2:81")]
    (by decide) (by decide) (by decide)
    (fun c hc => by
      have h : joinTokens "1.1.1.1:80" [(',', "2.2.2.2:81")] = "1.1.1.1:80,2.2.2.2:81" := by
        decide
      rw [h] at hc
      have h' : some '1' = some c := hc
      rw [← Option.some.inj h']
      decide)
    (fun c hc => by
      have h : joinTokens "1.1.1.1:80" [(',', "2.2.2.2:81")] = "1.1.1.1:80,2.2.2.2:81" := by
        decide
      rw [h] at hc
      have h' : some '1' = some c := hc
      rw [← Option.some.inj h']
      decide)
    (fun v hv => by simp at hv)

/-- C10. Normalisation adds a scheme only when none of the three recognised ones
is present.  Let a be an address without surrounding whitespace (it neither
starts nor ends with a newline, a tab, a carriage return or a space).  If a
starts with none of socks5://, https://, http:// then, provided the URL parser
accepts the string it is handed and re-serialises it unchanged, validProxyURL
returns t ++ "://" ++ a for a non-empty type t and "socks5://" ++ a for the
empty type.  If a starts with one of the three, then, under the same proviso on
the parser for a itself, it returns a unchanged whatever t is. -/
theorem C10_normalisation (lib : UrlLib) (a t : String)
    (hstart : ∀ c, a.data.head? = some c → c ∉ ['\n', '\t', '\r', ' ', '\t'])
    (hend : ∀ c, a.data.getLast? = some c → c ∉ ['\n', '\t', '\r', ' ', '\t']) :
    (HasPrefix a "socks5://" = false → HasPrefix a "https://" = false →
      HasPrefix a "http://" = false →
        (t ≠ "" → (∃ u, lib.Parse (t ++ "://" ++ a) = some u ∧
              lib.toString u = t ++ "://" ++ a) →
            validProxyURL lib a t = some (t ++ "://" ++ a)) ∧
        ((∃ u, lib.Parse ("socks5://" ++ a) = some u ∧ lib.toString u = "socks5://" ++ a) →
            validProxyURL lib a "" = some ("socks5://" ++ a))) ∧
    ((HasPrefix a "socks5://" = true ∨ HasPrefix a "https://" = true ∨
        HasPrefix a "http://" = true) →
      (∃ u, lib.Parse a = some u ∧ lib.toString u = a) →
        validProxyURL lib a t = some a) := by
  have htrim := Trim_of_ends a _ hstart hend
  refine ⟨?_, ?_⟩
  · intro h1 h2 h3
    refine ⟨?_, ?_⟩
    · rintro ht ⟨u, hu, hs⟩
      simp only [validProxyURL, htrim, h1, h2, h3, ht, if_false]
      simp only [beq_self_eq_true, Bool.and_self, if_true]
      rw [hu]
      exact congrArg some hs
    · rintro ⟨u, hu, hs⟩
      have hlit : "socks5" ++ "://" = "socks5://" := by decide
      simp only [validProxyURL, htrim, h1, h2, h3, if_true]
      simp only [beq_self_eq_true, Bool.and_self, if_true, hlit]
      rw [hu]
      exact congrArg some hs
  · rintro hpre ⟨u, hu, hs⟩
    have hcond : (HasPrefix a "socks5://" == false && HasPrefix a "https://" == false &&
        HasPrefix a "http://" == false) = false := by
      rcases hpre with h | h | h <;> simp [h]
    simp only [validProxyURL, htrim, hcond]
    simp only [Bool.false_eq_true, if_false]
    rw [hu]
    exact congrArg some hs

theorem C10_normalisation_witness :
    validProxyURL { URL := String, Parse := some, toString := id } "4.4.4.4:1080" "http"
      = some ("http" ++ "://" ++ "4.4.4.4:1080") ∧
    validProxyURL { URL := String, Parse := some, toString := id } "socks5://5.5.5.5:1080" "http"
      = some "socks5://5.5.5.5:1080" :=
  ⟨((C10_normalisation { URL := String, Parse := some, toString := id } "4.4.4.4:1080" "http"
      (fun c hc => by
        have h' : some '4' = some c := hc
        rw [← Option.some.inj h']
        decide)
      (fun c hc => by
        have h' : some '0' = some c := hc
        rw [← Option.some.inj h']
        decide)).1 (by decide) (by decide) (by decide)).1 (by decide) ⟨_, rfl, rfl⟩,
   (C10_normalisation { URL := String, Parse := some, toString := id }
      "socks5://5.5.5.5:1080" "http"
      (fun c hc => by
        have h' : some 's' = some c := hc
        rw [← Option.some.inj h']
        decide)
      (fun c hc => by
        have h' : some '0' = some c := hc
        rw [← Option.some.inj h']
        decide)).2 (Or.inl (by decide)) ⟨_, rfl, rfl⟩⟩

/-! ### Normalisation, configuration and the handler -/

theorem validProxyURL_eq (lib : UrlLib) (addr t : String) :
    validProxyURL lib addr t
      = (lib.Parse
          (if HasPrefix (Trim addr ['\n', '\t', '\r', ' ', '\t']) "socks5://" == false &&
              HasPrefix (Trim addr ['\n', '\t', '\r', ' ', '\t']) "https://" == false &&
              HasPrefix (Trim addr ['\n', '\t', '\r', ' ', '\t']) "http://" == false then
            (if t = "" then "socks5" else t) ++ "://" ++ Trim addr ['\n', '\t', '\r', ' ', '\t']
           else Trim addr ['\n', '\t', '\r', ' ', '\t'])).map lib.toString := by
  unfold validProxyURL
  simp only []
  split <;> simp_all

/-- C11. The address invariant is broken by an unchecked fallback type: with the
type ftp the address 1.2.3.4:80, which carries none of the three recognised
prefixes, is normalised to ftp://1.2.3.4:80 (the URL parser accepts this string
and re-serialises it unchanged); validProxyURL succeeds and its result begins
with none of socks5://, https://, http://. -/
theorem C11_fallback_type_unchecked :
    validProxyURL { URL := String, Parse := some, toString := id } "1.2.3.4:80" "ftp"
      = some "ftp://1.2.3.4:80" ∧
    HasPrefix "ftp://1.2.3.4:80" "socks5://" = false ∧
    HasPrefix "ftp://1.2.3.4:80" "https://" = false ∧
    HasPrefix "ftp://1.2.3.4:80" "http://" = false := by
  decide

/-- C12. Configuration fails exactly when there is no usable source: configure
returns an error if and only if sanitizePredifinedList yields the empty list and
the provider URL template is the empty string; when at least one predefined
entry survives, the refill source returns the sanitised list on every call and
the provider is the same whatever the template and the validity period of the
configuration are (the validity period of the receiver is kept); otherwise,
with a non-empty template, the refill source is the remote one and the validity
period is the configured one. -/
theorem C12_configure (lib : UrlLib) (w : World) (p : proxyProvider) (cfg : config) :
    (configure lib w p cfg = none ↔
      sanitizePredifinedList lib cfg.PredefinedProxies = [] ∧ cfg.ProviderAPIURLTemplate = "") ∧
    (sanitizePredifinedList lib cfg.PredefinedProxies ≠ [] →
      ∀ (tmpl : String) (vp : Nat), ∃ cfg',
        configure lib w p { cfg with ProviderAPIURLTemplate := tmpl, ValidPeriod := vp }
          = some ({ validPeriod := p.validPeriod,
                    refreshFunc := fun _ => sanitizePredifinedList lib cfg.PredefinedProxies },
                  cfg')) ∧
    (sanitizePredifinedList lib cfg.PredefinedProxies = [] → cfg.ProviderAPIURLTemplate ≠ "" →
      ∃ cfg', configure lib w p cfg
        = some ({ validPeriod := cfg.ValidPeriod,
                  refreshFunc := fun k =>
                    requestProxiesList w
                      (truncSprintf w cfg.ProviderAPIURLTemplate
                        [cfg.ProxyType, cfg.ExcludeCountries]) k },
                cfg')) := by
  refine ⟨?_, ?_, ?_⟩
  · unfold configure
    cases hs : sanitizePredifinedList lib cfg.PredefinedProxies with
    | nil =>
      by_cases ht : cfg.ProviderAPIURLTemplate = "" <;> simp [ht]
    | cons x xs => simp
  · intro hne tmpl vp
    have hlen : (sanitizePredifinedList lib cfg.PredefinedProxies).length > 0 :=
      List.length_pos.mpr hne
    refine ⟨{ cfg with ProviderAPIURLTemplate := tmpl, ValidPeriod := vp,
                       PredefinedProxies := sanitizePredifinedList lib cfg.PredefinedProxies },
            ?_⟩
    unfold configure
    simp only [hlen, if_true]
  · intro hnil htmpl
    refine ⟨{ cfg with PredefinedProxies := sanitizePredifinedList lib cfg.PredefinedProxies },
            ?_⟩
    unfold configure
    simp only [hnil, List.length_nil, gt_iff_lt, lt_self_iff_false, if_false, htmpl]

theorem C12_configure_witness :
    ∃ cfg', configure { URL := String, Parse := some, toString := id }
        { Sprintf := fun s _ => s, body := fun _ _ => "", decode := fun _ => none,
          ord := fun _ _ m => m }
        { validPeriod := 0, refreshFunc := fun _ => [] }
        { ListenAddr := "", PredefinedProxies := ["1.1.1.1:80"], ProxyType := "",
          ValidPeriod := 5, ExcludeCountries := "", ProviderAPIURLTemplate := "http://x/%s",
          Method := "" }
      = some ({ validPeriod := 0,
                refreshFunc := fun _ =>
                  sanitizePredifinedList { URL := String, Parse := some, toString := id }
                    ["1.1.1.1:80"] }, cfg') :=
  (C12_configure { URL := String, Parse := some, toString := id }
      { Sprintf := fun s _ => s, body := fun _ _ => "", decode := fun _ => none,
        ord := fun _ _ m => m }
      { validPeriod := 0, refreshFunc := fun _ => [] }
      { ListenAddr := "", PredefinedProxies := ["1.1.1.1:80"], ProxyType := "",
        ValidPeriod := 5, ExcludeCountries := "", ProviderAPIURLTemplate := "http://x/%s",
        Method := "" }).2.1 (by decide) "http://x/%s" 5

/-- C13. Exhaustion is not reported by the program itself: for the empty
address validProxyURL hands the bare scheme (socks5:// for the empty type) to
the URL parser and returns an error only if the parser rejects it; the handler
answers 500 in that case only, and otherwise answers 200 and writes what the
parser re-serialised.  With a parser that accepts the bare scheme the handler
answers 200. -/
theorem C13_exhaustion_not_reported :
    (∀ (lib : UrlLib) (t : String),
      handler lib "" t
        = match lib.Parse ((if t = "" then "socks5" else t) ++ "://") with
          | none => { status := 500, written := "" }
          | some u => { status := 200, written := lib.toString u }) ∧
    handler { URL := String, Parse := some, toString := id } "" ""
      = { status := 200, written := "socks5://" } := by
  refine ⟨?_, by decide⟩
  intro lib t
  have htrim : Trim "" ['\n', '\t', '\r', ' ', '\t'] = "" := by decide
  have happ : ∀ x : String, x ++ "" = x := fun x => by simp
  unfold handler
  rw [validProxyURL_eq, htrim]
  have hc : (HasPrefix "" "socks5://" == false && HasPrefix "" "https://" == false &&
      HasPrefix "" "http://" == false) = true := by decide
  rw [if_pos hc, happ]
  cases lib.Parse ((if t = "" then "socks5" else t) ++ "://") <;> rfl

/-! ### Order of service and the maintenance step -/

theorem roundStep_concat (p : proxyProvider) (st : RunState) (now handed : Int)
    (r : List String) (e : String) (calls : Nat)
    (hiter : handleExhaustmentIter p st.calls st.lastUpdated now st.inFlight = (r ++ [e], calls)) :
    roundStep p st now handed
      = some ({ published := r ++ [e], addr := e, remainder := r },
              { inFlight := r, lastUpdated := handed, calls := calls }) := by
  simp only [roundStep, hiter, next_concat]

theorem run_cons (p : proxyProvider) (st st1 st2 : RunState) (now handed : Int)
    (clock : List (Int × Int)) (log : RoundLog) (logs : List RoundLog)
    (hround : roundStep p st now handed = some (log, st1))
    (hrun : run p st1 clock = some (logs, st2)) :
    run p st ((now, handed) :: clock) = some (log :: logs, st2) := by
  simp only [run, hround, hrun]

theorem run_drain (p : proxyProvider) (h0 : p.validPeriod = 0) (pool : List String) :
    ∀ (st : RunState) (clock : List (Int × Int)), st.inFlight = pool →
      clock.length = pool.length →
      ∃ logs st', run p st clock = some (logs, st') ∧
        logs.map RoundLog.addr = pool.reverse := by
  induction pool using List.reverseRecOn with
  | nil =>
    intro st clock _ hlen
    have hclock : clock = [] := List.length_eq_zero.mp (by simpa using hlen)
    subst hclock
    exact ⟨[], st, rfl, rfl⟩
  | append_singleton r e ih =>
    intro st clock hst hlen
    match clock, hlen with
    | [], hlen => simp at hlen
    | (now, handed) :: clock, hlen =>
      have hlen' : clock.length = r.length := by simpa using hlen
      have hiter := iter_validPeriod_zero p st.calls st.lastUpdated now st.inFlight h0
      rw [hst] at hiter
      by_cases hr : r = []
      · subst hr
        have hclock : clock = [] := List.length_eq_zero.mp (by simpa using hlen')
        subst hclock
        have hiter' : handleExhaustmentIter p st.calls st.lastUpdated now st.inFlight
            = (p.refreshFunc st.calls ++ [e], st.calls + 1) := by
          rw [hst, hiter]
          simp
        exact ⟨_, _, run_cons p st _ _ now handed [] _ []
          (roundStep_concat p st now handed _ e _ hiter') rfl, by simp⟩
      · have hlong : ¬ (r ++ [e]).length ≤ 1 := by
          have hpos : 0 < r.length := List.length_pos.mpr hr
          rw [List.length_append, List.length_singleton]
          omega
        have hiter' : handleExhaustmentIter p st.calls st.lastUpdated now st.inFlight
            = (r ++ [e], st.calls) := by
          rw [hst, hiter, if_neg hlong]
        obtain ⟨logs, st', hrun, hlogs⟩ :=
          ih { inFlight := r, lastUpdated := handed, calls := st.calls } clock rfl hlen'
        exact ⟨_, st', run_cons p st _ _ now handed clock _ logs
          (roundStep_concat p st now handed r e _ hiter') hrun, by simp [hlogs]⟩

/-- C15, as stated, fails: the leftover is served first.  The loop refills the
snapshot [x] with the fetched list [f1, f2] and publishes [f1, f2, x]; the
calls of next that follow return x, then f2, then f1 (the third after another
refill in front of f1). -/
theorem C15_leftover_first_counterexample :
    run { validPeriod := 0, refreshFunc := fun _ => ["f1", "f2"] }
        { inFlight := ["x"], lastUpdated := 0, calls := 0 } [(0, 0), (0, 0), (0, 0)]
      = some ([{ published := ["f1", "f2", "x"], addr := "x", remainder := ["f1", "f2"] },
               { published := ["f1", "f2"], addr := "f2", remainder := ["f1"] },
               { published := ["f1", "f2", "f1"], addr := "f1", remainder := ["f1", "f2"] }],
              { inFlight := ["f1", "f2"], lastUpdated := 0, calls := 2 }) := by
  decide

/-- C15, amended. The leftover is served before the fresh entries: when the
loop refills a snapshot that holds exactly one leftover address x, not expired,
with the fetched list F, it publishes F ++ [x]; and, with validity period 0,
the calls of next that follow return x first and then the addresses of F, last
element first. -/
theorem C15_leftover_first (p : proxyProvider) (x : String) :
    (∀ (calls : Nat) (lastUpdated now : Int), expired p.validPeriod now lastUpdated = false →
      handleExhaustmentIter p calls lastUpdated now [x]
        = (p.refreshFunc calls ++ [x], calls + 1)) ∧
    (p.validPeriod = 0 → ∀ (st : RunState) (clock : List (Int × Int)), st.inFlight = [x] →
      clock.length = (p.refreshFunc st.calls).length + 1 →
      ∃ logs st', run p st clock = some (logs, st') ∧
        logs.map RoundLog.addr = x :: (p.refreshFunc st.calls).reverse) := by
  refine ⟨?_, ?_⟩
  · intro calls lastUpdated now hexp
    simp [handleExhaustmentIter, hexp]
  · intro h0 st clock hst hlen
    match clock, hlen with
    | [], hlen => simp at hlen
    | (now, handed) :: clock, hlen =>
      have hlen' : clock.length = (p.refreshFunc st.calls).length := by simpa using hlen
      have hiter : handleExhaustmentIter p st.calls st.lastUpdated now st.inFlight
          = (p.refreshFunc st.calls ++ [x], st.calls + 1) := by
        rw [iter_validPeriod_zero p st.calls st.lastUpdated now st.inFlight h0, hst]
        simp
      obtain ⟨logs, st', hrun, hlogs⟩ := run_drain p h0 (p.refreshFunc st.calls)
        { inFlight := p.refreshFunc st.calls, lastUpdated := handed, calls := st.calls + 1 }
        clock rfl hlen'
      exact ⟨_, st', run_cons p st _ _ now handed clock _ logs
        (roundStep_concat p st now handed _ x _ hiter) hrun, by simp [hlogs]⟩

theorem C15_leftover_first_witness :
    ∃ logs st', run { validPeriod := 0, refreshFunc := fun _ => ["f1", "f2"] }
        { inFlight := ["x"], lastUpdated := 0, calls := 0 } [(1, 2), (3, 4), (5, 6)]
          = some (logs, st') ∧
      logs.map RoundLog.addr = "x" :: ["f1", "f2"].reverse :=
  (C15_leftover_first { validPeriod := 0, refreshFunc := fun _ => ["f1", "f2"] } "x").2 rfl
    { inFlight := ["x"], lastUpdated := 0, calls := 0 } [(1, 2), (3, 4), (5, 6)] rfl rfl

theorem wrapInt64_of_range (x : Int) (h0 : 0 ≤ x) (h1 : x < 2 ^ 63) : wrapInt64 x = x := by
  unfold wrapInt64
  have h : (x + 2 ^ 63) % 2 ^ 64 = x + 2 ^ 63 := Int.emod_eq_of_lt (by omega) (by omega)
  omega

/-- Below the overflow of the duration the loop iteration and the specification
agree: same published snapshot, and the refill source is invoked in the one
exactly when it is in the other. -/
theorem iter_eq_maintenanceSpec (p : proxyProvider) (calls : Nat) (lastUpdated now : Int)
    (s : List String) (hfit : (p.validPeriod : Int) * 60000000000 < 2 ^ 63) :
    (handleExhaustmentIter p calls lastUpdated now s).1
      = (maintenanceSpec p.validPeriod (p.refreshFunc calls) now lastUpdated s).1 ∧
    ((handleExhaustmentIter p calls lastUpdated now s).2 = calls + 1 ↔
      (maintenanceSpec p.validPeriod (p.refreshFunc calls) now lastUpdated s).2 = true) := by
  have hp : (0 : Int) ≤ (p.validPeriod : Int) := Int.ofNat_nonneg _
  have hsmall : (p.validPeriod : Int) < 2 ^ 63 := by
    have : (p.validPeriod : Int) ≤ (p.validPeriod : Int) * 60000000000 := by nlinarith
    omega
  have hdur : validDuration p.validPeriod = (p.validPeriod : Int) * 60000000000 := by
    unfold validDuration minute
    rw [wrapInt64_of_range _ hp hsmall, wrapInt64_of_range _ (by nlinarith) hfit]
  unfold handleExhaustmentIter maintenanceSpec expired
  rw [hdur]
  by_cases hexp : p.validPeriod > 0 ∧ lastUpdated + (p.validPeriod : Int) * 60000000000 < now
  · simp [hexp.1, hexp.2]
  · have hb : (decide (p.validPeriod > 0) &&
        decide (lastUpdated + (p.validPeriod : Int) * 60000000000 < now)) = false := by
      simpa using hexp
    simp only [hb, if_neg hexp]
    by_cases hlen : s.length ≤ 1 <;> simp [hlen]

/-- C16. The maintenance step departs from its specification when the period in
nanoseconds overflows 64 bits: with a validity period of 153722868 minutes, one
nanosecond after lastUpdated the loop discards the snapshot [a, b] and invokes
the refill source, where the specification keeps [a, b] and does not invoke it.
One minute less, 153722867, and the two agree on this input. -/
theorem C16_duration_overflow :
    handleExhaustmentIter { validPeriod := 153722868, refreshFunc := fun _ => ["f"] }
        0 0 1 ["a", "b"] = (["f"], 1) ∧
    maintenanceSpec 153722868 ["f"] 1 0 ["a", "b"] = (["a", "b"], false) ∧
    validDuration 153722868 = -9223371993709551616 ∧
    handleExhaustmentIter { validPeriod := 153722867, refreshFunc := fun _ => ["f"] }
        0 0 1 ["a", "b"] = (["a", "b"], 0) := by
  decide

/-! ### Static lists -/

theorem roundStep_static (p : proxyProvider) (pool : List String) (h0 : p.validPeriod = 0)
    (hsrc : ∀ k, p.refreshFunc k = pool.reverse) (hne : pool ≠ [])
    (st : RunState) (j : Nat) (now handed : Int)
    (hinv : (j = 0 ∧ st.inFlight = []) ∨
      (2 ≤ pool.length ∧ j < pool.length ∧ st.inFlight = (pool.drop j).reverse)) :
    ∃ log st', roundStep p st now handed = some (log, st') ∧ pool[j]? = some log.addr ∧
      (((j + 1) % pool.length = 0 ∧ st'.inFlight = []) ∨
        (2 ≤ pool.length ∧ (j + 1) % pool.length < pool.length ∧
          st'.inFlight = (pool.drop ((j + 1) % pool.length)).reverse)) := by
  have hiter := iter_validPeriod_zero p st.calls st.lastUpdated now st.inFlight h0
  rcases hinv with ⟨hj, hfl⟩ | ⟨hn, hj, hfl⟩
  · subst hj
    match pool, hne, hsrc with
    | l0 :: rest, _, hsrc =>
      have hiter' : handleExhaustmentIter p st.calls st.lastUpdated now st.inFlight
          = (rest.reverse ++ [l0], st.calls + 1) := by
        rw [hiter, hfl, hsrc]
        simp
      refine ⟨_, _, roundStep_concat p st now handed _ l0 _ hiter', by simp, ?_⟩
      by_cases hrest : rest = []
      · left
        subst hrest
        exact ⟨by simp, rfl⟩
      · right
        have hpos : 0 < rest.length := List.length_pos.mpr hrest
        have hlen : (l0 :: rest).length = rest.length + 1 := rfl
        have hmod : (0 + 1) % (l0 :: rest).length = 1 := by
          rw [hlen]
          exact Nat.mod_eq_of_lt (by omega)
        rw [hmod]
        exact ⟨by rw [hlen]; omega, by rw [hlen]; omega, by simp⟩
  · have hdrop := List.drop_eq_getElem_cons hj
    have hfl' : st.inFlight = (pool.drop (j + 1)).reverse ++ [pool[j]] := by
      rw [hfl, hdrop, List.reverse_cons]
    have hget : pool[j]? = some pool[j] := List.getElem?_eq_getElem hj
    by_cases hlast : j + 1 < pool.length
    · have hlong : ¬ st.inFlight.length ≤ 1 := by
        rw [hfl, List.length_reverse, List.length_drop]
        omega
      have hiter' : handleExhaustmentIter p st.calls st.lastUpdated now st.inFlight
          = ((pool.drop (j + 1)).reverse ++ [pool[j]], st.calls) := by
        rw [hiter, if_neg hlong, hfl']
      refine ⟨_, _, roundStep_concat p st now handed _ _ _ hiter', hget, ?_⟩
      right
      rw [Nat.mod_eq_of_lt hlast]
      exact ⟨hn, hlast, rfl⟩
    · have hjn : j + 1 = pool.length := by omega
      have hnil : pool.drop (j + 1) = [] := List.drop_eq_nil_of_le (by omega)
      have hshort : st.inFlight.length ≤ 1 := by
        rw [hfl', hnil]
        simp
      have hiter' : handleExhaustmentIter p st.calls st.lastUpdated now st.inFlight
          = (pool.reverse ++ [pool[j]], st.calls + 1) := by
        rw [hiter, if_pos hshort, hsrc, hfl', hnil]
        simp
      refine ⟨_, _, roundStep_concat p st now handed _ _ _ hiter', hget, ?_⟩
      right
      rw [hjn, Nat.mod_self]
      exact ⟨hn, by omega, by simp⟩

theorem run_static (p : proxyProvider) (pool : List String) (h0 : p.validPeriod = 0)
    (hsrc : ∀ k, p.refreshFunc k = pool.reverse) (hne : pool ≠ [])
    (clock : List (Int × Int)) :
    ∀ (st : RunState) (j : Nat),
      ((j = 0 ∧ st.inFlight = []) ∨
        (2 ≤ pool.length ∧ j < pool.length ∧ st.inFlight = (pool.drop j).reverse)) →
      ∃ logs st', run p st clock = some (logs, st') ∧ logs.length = clock.length ∧
        ∀ i, i < clock.length →
          (logs[i]?).map RoundLog.addr = pool[(j + i) % pool.length]? := by
  have hpos : 0 < pool.length := List.length_pos.mpr hne
  induction clock with
  | nil =>
    intro st j _
    exact ⟨[], st, rfl, rfl, fun i hi => by simp at hi⟩
  | cons c clock ih =>
    intro st j hinv
    obtain ⟨now, handed⟩ := c
    have hj : j < pool.length := by
      rcases hinv with ⟨h, _⟩ | ⟨_, h, _⟩
      · omega
      · exact h
    obtain ⟨log, st1, hround, haddr, hinv1⟩ :=
      roundStep_static p pool h0 hsrc hne st j now handed hinv
    obtain ⟨logs, st2, hrun, hlen, hlogs⟩ := ih st1 ((j + 1) % pool.length) hinv1
    refine ⟨log :: logs, st2, run_cons p st st1 st2 now handed clock log logs hround hrun,
      by simp [hlen], ?_⟩
    intro i hi
    cases i with
    | zero =>
      simp only [List.getElem?_cons_zero, Option.map_some', Nat.add_zero,
        Nat.mod_eq_of_lt hj, haddr]
    | succ i =>
      have hi' : i < clock.length := by simpa using hi
      rw [List.getElem?_cons_succ, hlogs i hi', Nat.mod_add_mod]
      congr 2
      omega

theorem newProxyProvider_static (lib : UrlLib) (w : World) (cfg : config)
    (hne : sanitizePredifinedList lib cfg.PredefinedProxies ≠ []) :
    ∃ cfg', newProxyProvider lib w cfg
      = some ({ validPeriod := 0,
                refreshFunc := fun _ =>
                  (sanitizePredifinedList lib cfg.PredefinedProxies).reverse }, cfg') := by
  have hrev : sanitizePredifinedList lib cfg.PredefinedProxies.reverse
      = (sanitizePredifinedList lib cfg.PredefinedProxies).reverse :=
    List.filterMap_reverse _ _
  have hlen : (sanitizePredifinedList lib cfg.PredefinedProxies.reverse).length > 0 := by
    rw [hrev, List.length_reverse]
    exact List.length_pos.mpr hne
  refine ⟨{ cfg with PredefinedProxies :=
      sanitizePredifinedList lib cfg.PredefinedProxies.reverse }, ?_⟩
  rw [hrev] at hlen
  unfold newProxyProvider configure
  simp only [hrev]
  rw [if_pos hlen]

/-- C14. Static lists are served round-robin in their configured order: for a
predefined list whose sanitised form L is not empty, newProxyProvider succeeds
with validity period 0, and in the run it sets up (pool started empty, one loop
iteration alternating with one call of next, any clock readings) every call
returns and the k-th call (k = 0, 1, 2, ...) returns the entry of L of index
k mod the length of L. -/
theorem C14_round_robin (lib : UrlLib) (w : World) (cfg : config) (t0 : Int)
    (clock : List (Int × Int))
    (hne : sanitizePredifinedList lib cfg.PredefinedProxies ≠ []) :
    ∃ p cfg' logs st, newProxyProvider lib w cfg = some (p, cfg') ∧ p.validPeriod = 0 ∧
      run p (initState t0) clock = some (logs, st) ∧ logs.length = clock.length ∧
      ∀ k, k < clock.length →
        (logs[k]?).map RoundLog.addr
          = (sanitizePredifinedList lib cfg.PredefinedProxies)[k %
              (sanitizePredifinedList lib cfg.PredefinedProxies).length]? := by
  obtain ⟨cfg', hnew⟩ := newProxyProvider_static lib w cfg hne
  obtain ⟨logs, st, hrun, hlen, hlogs⟩ :=
    run_static { validPeriod := 0,
                 refreshFunc := fun _ =>
                   (sanitizePredifinedList lib cfg.PredefinedProxies).reverse }
      (sanitizePredifinedList lib cfg.PredefinedProxies) rfl (fun _ => rfl) hne clock
      (initState t0) 0 (Or.inl ⟨rfl, rfl⟩)
  refine ⟨_, cfg', logs, st, hnew, rfl, hrun, hlen, ?_⟩
  intro k hk
  have h := hlogs k hk
  simpa using h

theorem C14_round_robin_witness :
    ∃ p cfg' logs st,
      newProxyProvider { URL := String, Parse := some, toString := id }
          { Sprintf := fun s _ => s, body := fun _ _ => "", decode := fun _ => none,
            ord := fun _ _ m => m }
          { ListenAddr := "", PredefinedProxies := ["http://a:1", "http://b:2"],
            ProxyType := "", ValidPeriod := 0, ExcludeCountries := "",
            ProviderAPIURLTemplate := "", Method := "" } = some (p, cfg') ∧
      p.validPeriod = 0 ∧
      run p (initState 0) [(1, 2), (3, 4), (5, 6)] = some (logs, st) ∧
      logs.length = [((1 : Int), (2 : Int)), (3, 4), (5, 6)].length ∧
      ∀ k, k < [((1 : Int), (2 : Int)), (3, 4), (5, 6)].length →
        (logs[k]?).map RoundLog.addr
          = (sanitizePredifinedList { URL := String, Parse := some, toString := id }
              ["http://a:1", "http://b:2"])[k %
              (sanitizePredifinedList { URL := String, Parse := some, toString := id }
                ["http://a:1", "http://b:2"]).length]? :=
  C14_round_robin { URL := String, Parse := some, toString := id }
    { Sprintf := fun s _ => s, body := fun _ _ => "", decode := fun _ => none,
      ord := fun _ _ m => m }
    { ListenAddr := "", PredefinedProxies := ["http://a:1", "http://b:2"],
      ProxyType := "", ValidPeriod := 0, ExcludeCountries := "",
      ProviderAPIURLTemplate := "", Method := "" } 0 [(1, 2), (3, 4), (5, 6)] (by decide)

/-! ### Soundness of the extraction and the plain-text records -/

/-- C17. Extraction pairs keys of different objects: in the document with the
two keys a and b, where the object under a holds only the key ip (1.1.1.1) and
the object under b holds only the key port (80), no object holds both keys, yet
the result is the address 1.1.1.1:80, in both orders of visiting the maps.  The
second sibling is unmarshalled into the map that still holds the entries of the
first, and the merged map is searched. -/
theorem C17_pairs_across_objects :
    (digInJSONRaw (fun _ m => m) 0
        [("a", .obj [("ip", .str "1.1.1.1")]), ("b", .obj [("port", .num "80")])]).map Prod.fst
      = some ["1.1.1.1:80"] ∧
    (digInJSONRaw (fun _ m => m.reverse) 0
        [("a", .obj [("ip", .str "1.1.1.1")]), ("b", .obj [("port", .num "80")])]).map Prod.fst
      = some ["1.1.1.1:80"] := by
  decide

theorem splitChars_ne_nil (sep : Char) (l : List Char) : splitChars sep l ≠ [] := by
  cases l with
  | nil => simp [splitChars]
  | cons c cs =>
    unfold splitChars
    by_cases hc : c = sep
    · simp [hc]
    · simp only [hc, if_false]
      cases splitChars sep cs <;> simp

theorem split_decompose (sep : Char) (l : List Char) :
    sep ∉ l ∨ ∃ t l', l = t ++ sep :: l' ∧ sep ∉ t := by
  induction l with
  | nil => left; simp
  | cons c cs ih =>
    by_cases hc : c = sep
    · right
      exact ⟨[], cs, by simp [hc], by simp⟩
    · rcases ih with h | ⟨t, l', hl, ht⟩
      · left
        intro hmem
        rcases List.mem_cons.mp hmem with h' | h'
        · exact hc h'.symm
        · exact h h'
      · right
        refine ⟨c :: t, l', by simp [hl], ?_⟩
        intro hmem
        rcases List.mem_cons.mp hmem with h' | h'
        · exact hc h'.symm
        · exact ht h'

theorem splitChars_pieces (sep : Char) :
    ∀ (n : Nat) (l : List Char), l.length ≤ n →
      (∀ piece ∈ splitChars sep l, sep ∉ piece) ∧
      (∀ e, (splitChars sep l).head? = some e → ∀ c, e.head? = some c → l.head? = some c) ∧
      (∀ e, (splitChars sep l).getLast? = some e → ∀ c, e.getLast? = some c →
        l.getLast? = some c) := by
  intro n
  induction n with
  | zero =>
    intro l hl
    have hnil : l = [] := List.length_eq_zero.mp (by omega)
    subst hnil
    simp [splitChars]
  | succ n ih =>
    intro l hl
    rcases split_decompose sep l with hno | ⟨t, l', rfl, ht⟩
    · rw [splitChars_no_sep sep l hno]
      refine ⟨?_, ?_, ?_⟩
      · intro piece hp
        rw [List.mem_singleton.mp hp]
        exact hno
      · intro e he c hc
        simp only [List.head?_cons, Option.some.injEq] at he
        rw [he]
        exact hc
      · intro e he c hc
        simp only [List.getLast?_singleton, Option.some.injEq] at he
        rw [he]
        exact hc
    · have hlen : l'.length ≤ n := by
        simp only [List.length_append, List.length_cons] at hl
        omega
      obtain ⟨h1, _, h3⟩ := ih l' hlen
      rw [splitChars_append_sep sep t l' ht]
      refine ⟨?_, ?_, ?_⟩
      · intro piece hp
        rcases List.mem_cons.mp hp with h | h
        · rw [h]
          exact ht
        · exact h1 piece h
      · intro e he c hc
        simp only [List.head?_cons, Option.some.injEq] at he
        rw [← he] at hc
        cases t with
        | nil => simp at hc
        | cons x xs =>
          simp only [List.head?_cons, Option.some.injEq] at hc
          simp [hc]
      · intro e he c hc
        obtain ⟨q, qs, hq⟩ := List.exists_cons_of_ne_nil (splitChars_ne_nil sep l')
        have he' : (splitChars sep l').getLast? = some e := by
          rw [hq] at he ⊢
          simpa [List.getLast?_cons_cons] using he
        have hl' := h3 e he' c hc
        cases l' with
        | nil => simp at hl'
        | cons y ys =>
          rw [List.getLast?_append_of_ne_nil _ (by simp), List.getLast?_cons_cons]
          exact hl'

theorem Trim_ends (s : String) (cutset : List Char) :
    (∀ c, (Trim s cutset).data.head? = some c → c ∉ cutset) ∧
    (∀ c, (Trim s cutset).data.getLast? = some c → c ∉ cutset) := by
  have hdrop : ∀ (l : List Char) (c : Char),
      (l.dropWhile fun c => decide (c ∈ cutset)).head? = some c → c ∉ cutset := by
    intro l c hc
    have h := List.head?_dropWhile_not (fun c => decide (c ∈ cutset)) l
    rw [hc] at h
    simpa using h
  unfold Trim
  refine ⟨?_, ?_⟩
  · intro c hc
    have hsuf := List.dropWhile_suffix (fun c => decide (c ∈ cutset))
      (l := (s.data.dropWhile fun c => decide (c ∈ cutset)).reverse)
    obtain ⟨front, hfront⟩ := hsuf
    have hrev := congrArg List.reverse hfront
    rw [List.reverse_append, List.reverse_reverse] at hrev
    cases hB : ((s.data.dropWhile fun c => decide (c ∈ cutset)).reverse.dropWhile
        fun c => decide (c ∈ cutset)).reverse with
    | nil => rw [hB] at hc; simp at hc
    | cons b bs =>
      rw [hB] at hc hrev
      simp only [List.head?_cons, Option.some.injEq] at hc
      subst hc
      exact hdrop s.data b (by rw [← hrev]; simp)
  · intro c hc
    simp only [List.getLast?_reverse] at hc
    exact hdrop _ c hc

theorem splitChars_mem (sep : Char) (l : List Char) :
    ∀ piece ∈ splitChars sep l, ∀ c ∈ piece, c ∈ l := by
  induction l with
  | nil =>
    intro piece hp c hc
    simp only [splitChars, List.mem_singleton] at hp
    rw [hp] at hc
    exact hc
  | cons x xs ih =>
    intro piece hp c hc
    unfold splitChars at hp
    by_cases hx : x = sep
    · simp only [hx, if_true] at hp
      rcases List.mem_cons.mp hp with h | h
      · rw [h] at hc
        simp at hc
      · exact List.mem_cons_of_mem _ (ih piece h c hc)
    · simp only [hx, if_false] at hp
      cases hsp : splitChars sep xs with
      | nil => exact absurd hsp (splitChars_ne_nil sep xs)
      | cons q qs =>
        rw [hsp] at hp ih
        rcases List.mem_cons.mp hp with h | h
        · rw [h] at hc
          rcases List.mem_cons.mp hc with h' | h'
          · rw [h']
            exact List.mem_cons_self _ _
          · exact List.mem_cons_of_mem _ (ih q (List.mem_cons_self _ _) c h')
        · exact List.mem_cons_of_mem _ (ih piece (List.mem_cons_of_mem _ h) c hc)

theorem splitTextData_eq (data : String) :
    splitTextData data
      = (splitChars '\n' ((Trim data ['\n', '\t', ' ']).data.map
          fun c => if c = ',' then '\n' else c)).map String.mk := rfl

/-- C18, as stated, fails in both halves: the text "a , b" is split into "a "
and " b", which keep the spaces around the comma; and the text ",a" gives the
two records "" and "a", while with its comma replaced by a newline the leading
newline is trimmed and the result is the single record "a" (and the other way
round from the text newline, a). -/
theorem C18_plain_text_records_counterexample :
    splitTextData "a , b" = ["a ", " b"] ∧
    splitTextData ",a" = ["", "a"] ∧
    splitTextData (ReplaceAll ",a" ',' '\n') = ["a"] ∧
    splitTextData "\na" = ["a"] ∧
    splitTextData (ReplaceAll "\na" '\n' ',') = ["", "a"] := by
  decide

/-- C18, amended. Plain-text records: for every input text, no element of the
result of splitTextData contains a newline or a comma, the first element does
not start and the last element does not end with a space, a tab or a newline
(the elements keep the spaces and tabs next to the separators inside the text);
and for every input text that neither starts nor ends with a space, a tab, a
newline or a comma, replacing every comma by a newline, or every newline by a
comma, does not change the result. -/
theorem C18_plain_text_records (data : String) :
    (∀ e ∈ splitTextData data, '\n' ∉ e.data ∧ ',' ∉ e.data) ∧
    (∀ e, (splitTextData data).head? = some e → ∀ c, e.data.head? = some c →
      c ∉ ['\n', '\t', ' ']) ∧
    (∀ e, (splitTextData data).getLast? = some e → ∀ c, e.data.getLast? = some c →
      c ∉ ['\n', '\t', ' ']) ∧
    ((∀ c, data.data.head? = some c → c ∉ ['\n', '\t', ' ', ',']) →
      (∀ c, data.data.getLast? = some c → c ∉ ['\n', '\t', ' ', ',']) →
      splitTextData (ReplaceAll data ',' '\n') = splitTextData data ∧
      splitTextData (ReplaceAll data '\n' ',') = splitTextData data) := by
  obtain ⟨hnosep, hhead, hlast⟩ := splitChars_pieces '\n' _
    ((Trim data ['\n', '\t', ' ']).data.map fun c => if c = ',' then '\n' else c) (le_refl _)
  obtain ⟨hT1, hT2⟩ := Trim_ends data ['\n', '\t', ' ']
  have hnocomma : ∀ c ∈ (Trim data ['\n', '\t', ' ']).data.map
      (fun c => if c = ',' then '\n' else c), c ≠ ',' := by
    intro c hc
    obtain ⟨c0, _, hc0⟩ := List.mem_map.mp hc
    by_cases h : c0 = ','
    · rw [if_pos h] at hc0
      rw [← hc0]
      decide
    · rw [if_neg h] at hc0
      rw [← hc0]
      exact h
  refine ⟨?_, ?_, ?_, ?_⟩
  · intro e he
    rw [splitTextData_eq] at he
    obtain ⟨piece, hp, rfl⟩ := List.mem_map.mp he
    refine ⟨hnosep piece hp, ?_⟩
    intro hmem
    exact hnocomma ',' (splitChars_mem '\n' _ piece hp ',' hmem) rfl
  · intro e he c hc
    rw [splitTextData_eq, List.head?_map] at he
    cases hsp : (splitChars '\n' ((Trim data ['\n', '\t', ' ']).data.map
        fun c => if c = ',' then '\n' else c)).head? with
    | none => rw [hsp] at he; simp at he
    | some piece =>
      rw [hsp] at he
      simp only [Option.map_some', Option.some.injEq] at he
      rw [← he] at hc
      have hc' : piece.head? = some c := hc
      have hin := hhead piece hsp c hc'
      rw [List.head?_map] at hin
      cases hT : (Trim data ['\n', '\t', ' ']).data.head? with
      | none => rw [hT] at hin; simp at hin
      | some c0 =>
        rw [hT] at hin
        simp only [Option.map_some', Option.some.injEq] at hin
        have hc0 := hT1 c0 hT
        by_cases h : c0 = ','
        · rw [if_pos h] at hin
          have hmem : c ∈ piece := List.mem_of_mem_head? hc'
          rw [← hin] at hmem
          exact absurd hmem (hnosep piece (List.mem_of_mem_head? hsp))
        · rw [if_neg h] at hin
          rw [← hin]
          exact hc0
  · intro e he c hc
    rw [splitTextData_eq, List.getLast?_map] at he
    cases hsp : (splitChars '\n' ((Trim data ['\n', '\t', ' ']).data.map
        fun c => if c = ',' then '\n' else c)).getLast? with
    | none => rw [hsp] at he; simp at he
    | some piece =>
      rw [hsp] at he
      simp only [Option.map_some', Option.some.injEq] at he
      rw [← he] at hc
      have hc' : piece.getLast? = some c := hc
      have hin := hlast piece hsp c hc'
      rw [List.getLast?_map] at hin
      cases hT : (Trim data ['\n', '\t', ' ']).data.getLast? with
      | none => rw [hT] at hin; simp at hin
      | some c0 =>
        rw [hT] at hin
        simp only [Option.map_some', Option.some.injEq] at hin
        have hc0 := hT2 c0 hT
        by_cases h : c0 = ','
        · rw [if_pos h] at hin
          have hmem : c ∈ piece := List.mem_of_getLast?_eq_some hc'
          rw [← hin] at hmem
          exact absurd hmem (hnosep piece (List.mem_of_getLast?_eq_some hsp))
        · rw [if_neg h] at hin
          rw [← hin]
          exact hc0
  · intro hstart hend
    have hcut : ∀ c : Char, c ∉ ['\n', '\t', ' ', ','] →
        c ∉ ['\n', '\t', ' '] ∧ c ≠ ',' ∧ c ≠ '\n' := by
      intro c hc
      simp only [List.mem_cons, List.mem_singleton, List.not_mem_nil, or_false, not_or] at hc ⊢
      exact ⟨⟨hc.1, hc.2.1, hc.2.2.1⟩, hc.2.2.2, hc.1⟩
    have htrim : Trim data ['\n', '\t', ' '] = data :=
      Trim_of_ends data _ (fun c hc => (hcut c (hstart c hc)).1)
        (fun c hc => (hcut c (hend c hc)).1)
    have htrim1 : Trim (ReplaceAll data ',' '\n') ['\n', '\t', ' '] = ReplaceAll data ',' '\n' := by
      apply Trim_of_ends
      · intro c hc
        simp only [ReplaceAll, List.head?_map] at hc
        cases hd : data.data.head? with
        | none => rw [hd] at hc; simp at hc
        | some c0 =>
          rw [hd] at hc
          simp only [Option.map_some', Option.some.injEq] at hc
          have h := hcut c0 (hstart c0 hd)
          rw [if_neg h.2.1] at hc
          rw [← hc]
          exact h.1
      · intro c hc
        simp only [ReplaceAll, List.getLast?_map] at hc
        cases hd : data.data.getLast? with
        | none => rw [hd] at hc; simp at hc
        | some c0 =>
          rw [hd] at hc
          simp only [Option.map_some', Option.some.injEq] at hc
          have h := hcut c0 (hend c0 hd)
          rw [if_neg h.2.1] at hc
          rw [← hc]
          exact h.1
    have htrim2 : Trim (ReplaceAll data '\n' ',') ['\n', '\t', ' '] = ReplaceAll data '\n' ',' := by
      apply Trim_of_ends
      · intro c hc
        simp only [ReplaceAll, List.head?_map] at hc
        cases hd : data.data.head? with
        | none => rw [hd] at hc; simp at hc
        | some c0 =>
          rw [hd] at hc
          simp only [Option.map_some', Option.some.injEq] at hc
          have h := hcut c0 (hstart c0 hd)
          rw [if_neg h.2.2] at hc
          rw [← hc]
          exact h.1
      · intro c hc
        simp only [ReplaceAll, List.getLast?_map] at hc
        cases hd : data.data.getLast? with
        | none => rw [hd] at hc; simp at hc
        | some c0 =>
          rw [hd] at hc
          simp only [Option.map_some', Option.some.injEq] at hc
          have h := hcut c0 (hend c0 hd)
          rw [if_neg h.2.2] at hc
          rw [← hc]
          exact h.1
    have hmap1 : ∀ l : List Char,
        (l.map fun c => if c = ',' then '\n' else c).map (fun c => if c = ',' then '\n' else c)
          = l.map fun c => if c = ',' then '\n' else c := by
      intro l
      rw [List.map_map]
      apply List.map_congr_left
      intro c _
      by_cases h : c = ','
      · simp only [Function.comp, h]
        decide
      · simp only [Function.comp, if_neg h]
    have hmap2 : ∀ l : List Char,
        (l.map fun c => if c = '\n' then ',' else c).map (fun c => if c = ',' then '\n' else c)
          = l.map fun c => if c = ',' then '\n' else c := by
      intro l
      rw [List.map_map]
      apply List.map_congr_left
      intro c _
      by_cases h : c = '\n'
      · simp only [Function.comp, h]
        decide
      · simp only [Function.comp, if_neg h]
    refine ⟨?_, ?_⟩
    · rw [splitTextData_eq, splitTextData_eq, htrim1, htrim]
      simp only [ReplaceAll, hmap1]
    · rw [splitTextData_eq, splitTextData_eq, htrim2, htrim]
      simp only [ReplaceAll, hmap2]

theorem C18_plain_text_records_witness :
    splitTextData (ReplaceAll "a,b\nc" ',' '\n') = splitTextData "a,b\nc" ∧
    splitTextData (ReplaceAll "a,b\nc" '\n' ',') = splitTextData "a,b\nc" :=
  (C18_plain_text_records "a,b\nc").2.2.2
    (fun c hc => by
      have h' : some 'a' = some c := hc
      rw [← Option.some.inj h']
      decide)
    (fun c hc => by
      have h' : some 'c' = some c := hc
      rw [← Option.some.inj h']
      decide)

/-! ### Termination of the extractor -/

theorem depth_le_depthKvs (m : List (String × Json)) :
    ∀ kv ∈ m, kv.2.depth ≤ depthKvs m := by
  induction m with
  | nil => intro kv h; simp at h
  | cons e m ih =>
    intro kv h
    obtain ⟨k, v⟩ := e
    simp only [depthKvs]
    rcases List.mem_cons.mp h with h' | h'
    · rw [h']
      exact le_max_left _ _
    · exact le_trans (ih kv h') (le_max_right _ _)

theorem depth_le_depthList (xs : List Json) : ∀ x ∈ xs, x.depth ≤ depthList xs := by
  induction xs with
  | nil => intro x h; simp at h
  | cons y ys ih =>
    intro x h
    simp only [depthList]
    rcases List.mem_cons.mp h with h' | h'
    · rw [h']
      exact le_max_left _ _
    · exact le_trans (ih x h') (le_max_right _ _)

theorem mem_mapSet (m : RawMap) (k : String) (v : Json) :
    ∀ kv ∈ mapSet m k v, kv ∈ m ∨ kv = (k, v) := by
  induction m with
  | nil =>
    intro kv h
    simp only [mapSet, List.mem_singleton] at h
    exact Or.inr h
  | cons e m ih =>
    intro kv h
    obtain ⟨k', v'⟩ := e
    unfold mapSet at h
    by_cases hk : k' = k
    · simp only [hk, if_true] at h
      rcases List.mem_cons.mp h with h' | h'
      · exact Or.inr h'
      · exact Or.inl (List.mem_cons_of_mem _ h')
    · simp only [hk, if_false] at h
      rcases List.mem_cons.mp h with h' | h'
      · exact Or.inl (h' ▸ List.mem_cons_self _ _)
      · rcases ih kv h' with h'' | h''
        · exact Or.inl (List.mem_cons_of_mem _ h'')
        · exact Or.inr h''

theorem mem_foldl_mapSet (kvs : List (String × Json)) :
    ∀ (m : RawMap), ∀ kv ∈ kvs.foldl (fun acc e => mapSet acc e.1 e.2) m, kv ∈ m ∨ kv ∈ kvs := by
  induction kvs with
  | nil => intro m kv h; exact Or.inl h
  | cons e kvs ih =>
    intro m kv h
    simp only [List.foldl_cons] at h
    rcases ih _ kv h with h' | h'
    · rcases mem_mapSet m e.1 e.2 kv h' with h'' | h''
      · exact Or.inl h''
      · exact Or.inr (h'' ▸ List.mem_cons_self _ _)
    · exact Or.inr (List.mem_cons_of_mem _ h')

theorem unmarshalMap_bound (bound : Nat) (v : Json) (m : RawMap) (hv : v.depth + 1 ≤ bound)
    (hm : ∀ kv ∈ m, kv.2.depth + 2 ≤ bound) :
    ∀ kv ∈ (unmarshalMap v m).2, kv.2.depth + 2 ≤ bound := by
  intro kv h
  cases v with
  | obj kvs =>
    simp only [unmarshalMap] at h
    rcases mem_foldl_mapSet kvs m kv h with h' | h'
    · exact hm kv h'
    · have hd := depth_le_depthKvs kvs kv h'
      simp only [Json.depth] at hv
      omega
  | null => simp [unmarshalMap] at h
  | bool b => exact hm kv h
  | num lit => exact hm kv h
  | str t => exact hm kv h
  | arr xs => exact hm kv h

theorem unmarshalList_bound (bound : Nat) (v : Json) (l : List Json) (hv : v.depth + 1 ≤ bound)
    (hl : ∀ x ∈ l, x.depth + 1 ≤ bound) :
    ∀ x ∈ (unmarshalList v l).2, x.depth + 1 ≤ bound := by
  intro x h
  cases v with
  | arr xs =>
    simp only [unmarshalList] at h
    have hd := depth_le_depthList xs x h
    simp only [Json.depth] at hv
    omega
  | null => simp [unmarshalList] at h
  | bool b => exact hl x h
  | num lit => exact hl x h
  | str t => exact hl x h
  | obj kvs => exact hl x h

theorem digBody_agree (bound : Nat) (dig1 dig2 : Nat → RawMap → Option (List String × Nat))
    (hdig : ∀ n m, (∀ kv ∈ m, kv.2.depth + 2 ≤ bound) →
      ∃ r, dig1 n m = some r ∧ dig2 n m = some r)
    (st : DigVars) (kv : String × Json)
    (hm : ∀ e ∈ st.mapOfRaws, e.2.depth + 2 ≤ bound)
    (hl : ∀ x ∈ st.listOfRaws, x.depth + 1 ≤ bound)
    (hkv : kv.2.depth + 1 ≤ bound) :
    ∃ st', digBody dig1 st kv = some st' ∧ digBody dig2 st kv = some st' ∧
      (∀ e ∈ st'.mapOfRaws, e.2.depth + 2 ≤ bound) ∧
      (∀ x ∈ st'.listOfRaws, x.depth + 1 ≤ bound) := by
  by_cases hip : kv.1 = "ip"
  · unfold digBody
    simp only [hip, if_true]
    by_cases hc : unmarshalString kv.2 st.ip ++ ":" ≠ "" ∧ st.port ≠ ""
    · rw [if_pos hc]
      exact ⟨_, rfl, rfl, hm, hl⟩
    · rw [if_neg hc]
      exact ⟨_, rfl, rfl, hm, hl⟩
  · by_cases hport : kv.1 = "port"
    · unfold digBody
      simp only [hip, hport, if_true, if_false]
      by_cases hc : st.ip ≠ "" ∧ unmarshalNumber kv.2 "" ≠ ""
      · rw [if_pos hc]
        exact ⟨_, rfl, rfl, hm, hl⟩
      · rw [if_neg hc]
        exact ⟨_, rfl, rfl, hm, hl⟩
    · unfold digBody
      simp only [hip, hport, if_false]
      have hm1 := unmarshalMap_bound bound kv.2 st.mapOfRaws hkv hm
      have hl1 := unmarshalList_bound bound kv.2 st.listOfRaws hkv hl
      by_cases herr : (unmarshalMap kv.2 st.mapOfRaws).1 = true
      · simp only [if_pos herr]
        by_cases hcond : st.ip ++ st.port = "" ∧ (unmarshalList kv.2 st.listOfRaws).2.length > 0
        · simp only [if_pos hcond]
          cases hget : (unmarshalList kv.2 st.listOfRaws).2.get? 0 with
          | none =>
            have hlen := List.get?_eq_none.mp hget
            omega
          | some first =>
            have hfirst : first ∈ (unmarshalList kv.2 st.listOfRaws).2 := List.get?_mem hget
            have hm2 := unmarshalMap_bound bound first (unmarshalMap kv.2 st.mapOfRaws).2
              (hl1 first hfirst) hm1
            obtain ⟨⟨sub1, n1⟩, hd1, hd1'⟩ := hdig st.visits _ hm2
            obtain ⟨⟨sub2, n2⟩, hd2, hd2'⟩ := hdig n1 _ hm2
            simp only [hd1, hd1', if_pos hcond.1, hd2, hd2']
            exact ⟨_, rfl, rfl, hm2, hl1⟩
        · simp only [if_neg hcond]
          by_cases hemp : st.ip ++ st.port = ""
          · obtain ⟨⟨sub, n⟩, hd, hd'⟩ := hdig st.visits _ hm1
            simp only [if_pos hemp, hd, hd']
            exact ⟨_, rfl, rfl, hm1, hl1⟩
          · simp only [if_neg hemp]
            exact ⟨_, rfl, rfl, hm1, hl1⟩
      · simp only [if_neg herr]
        by_cases hemp : st.ip ++ st.port = ""
        · obtain ⟨⟨sub, n⟩, hd, hd'⟩ := hdig st.visits _ hm1
          simp only [if_pos hemp, hd, hd']
          exact ⟨_, rfl, rfl, hm1, hl⟩
        · simp only [if_neg hemp]
          exact ⟨_, rfl, rfl, hm1, hl⟩

theorem digLoop_agree (bound : Nat) (dig1 dig2 : Nat → RawMap → Option (List String × Nat))
    (hdig : ∀ n m, (∀ kv ∈ m, kv.2.depth + 2 ≤ bound) →
      ∃ r, dig1 n m = some r ∧ dig2 n m = some r)
    (l : List (String × Json)) :
    ∀ st : DigVars, (∀ e ∈ st.mapOfRaws, e.2.depth + 2 ≤ bound) →
      (∀ x ∈ st.listOfRaws, x.depth + 1 ≤ bound) →
      (∀ kv ∈ l, kv.2.depth + 1 ≤ bound) →
      ∃ st', digLoop dig1 st l = some st' ∧ digLoop dig2 st l = some st' ∧
        ∀ e ∈ st'.mapOfRaws, e.2.depth + 2 ≤ bound := by
  induction l with
  | nil => intro st hm _ _; exact ⟨st, rfl, rfl, hm⟩
  | cons kv l ih =>
    intro st hm hl hkv
    obtain ⟨st1, h1, h2, hm1, hl1⟩ :=
      digBody_agree bound dig1 dig2 hdig st kv hm hl (hkv kv (List.mem_cons_self _ _))
    obtain ⟨st2, h3, h4, hm2⟩ :=
      ih st1 hm1 hl1 (fun e he => hkv e (List.mem_cons_of_mem _ he))
    refine ⟨st2, ?_, ?_, hm2⟩
    · simp only [digLoop, h1, h3]
    · simp only [digLoop, h2, h4]

theorem digFuel_step (ord : Nat → RawMap → List (String × Json)) (fuel n : Nat) (m : RawMap) :
    digFuel ord (fuel + 1) n m
      = match digLoop (digFuel ord fuel) (digInit (n + 1)) (ord n m) with
        | none => none
        | some st => some (st.result, st.visits) := rfl

theorem digFuel_agree (ord : Nat → RawMap → List (String × Json))
    (hord : ∀ n m, (ord n m).Perm m) (fuel : Nat) :
    ∀ (n : Nat) (m : RawMap), (∀ kv ∈ m, kv.2.depth + 2 ≤ fuel + 1) →
      ∃ r, digFuel ord (fuel + 1) n m = some r ∧ digFuel ord (fuel + 2) n m = some r := by
  induction fuel with
  | zero =>
    intro n m hm
    have hnil : m = [] := by
      cases m with
      | nil => rfl
      | cons e m =>
        have h := hm e (List.mem_cons_self _ _)
        omega
    subst hnil
    have hvisit : ord n [] = [] := List.Perm.eq_nil (hord n [])
    refine ⟨([], n + 1), ?_, ?_⟩
    · rw [digFuel_step, hvisit]
      rfl
    · rw [digFuel_step, hvisit]
      rfl
  | succ fuel ih =>
    intro n m hm
    have hentries : ∀ kv ∈ ord n m, kv.2.depth + 1 ≤ fuel + 1 := by
      intro kv hkv
      have h := hm kv ((hord n m).subset hkv)
      omega
    obtain ⟨st', h1, h2, _⟩ := digLoop_agree (fuel + 1) (digFuel ord (fuel + 1))
      (digFuel ord (fuel + 2)) ih (ord n m) (digInit (n + 1))
      (by intro e he; simp [digInit] at he) (by intro x hx; simp [digInit] at hx) hentries
    refine ⟨(st'.result, st'.visits), ?_, ?_⟩
    · rw [digFuel_step, h1]
    · rw [digFuel_step, h2]

/-- C20. The extractor terminates on every input: for every map of raw values,
every order of visits and every count of earlier visits, digInJSONRaw returns a
result, and the recursion never goes deeper than the nesting depth of the
values of the map plus two: every larger bound gives the same result.  After
the loop has run over any sequence of entries of the map, the map carried
between the iterations, on which the recursive calls are made, holds only
values nested strictly less deep than the deepest value of the current map,
also when it has accumulated the entries of several sibling objects or is
still nil. -/
theorem C20_extractor_total (ord : Nat → RawMap → List (String × Json))
    (hord : ∀ n m, (ord n m).Perm m) (visits : Nat) (data : RawMap) :
    (∃ r, digInJSONRaw ord visits data = some r ∧
      ∀ fuel, depthKvs data + 2 ≤ fuel → digFuel ord fuel visits data = some r) ∧
    (∀ l : List (String × Json), (∀ kv ∈ l, kv ∈ data) →
      ∃ st, digLoop (digFuel ord (depthKvs data + 1)) (digInit (visits + 1)) l = some st ∧
        ∀ e ∈ st.mapOfRaws, e.2.depth < depthKvs data) := by
  refine ⟨?_, ?_⟩
  swap
  · intro l hl
    obtain ⟨st, h1, _, hm⟩ := digLoop_agree (depthKvs data + 1)
      (digFuel ord (depthKvs data + 1)) (digFuel ord (depthKvs data + 1))
      (fun n m hm => by
        obtain ⟨r, hr, _⟩ := digFuel_agree ord hord (depthKvs data) n m hm
        exact ⟨r, hr, hr⟩)
      l (digInit (visits + 1))
      (by intro e he; simp [digInit] at he) (by intro x hx; simp [digInit] at hx)
      (fun kv hkv => by
        have h := depth_le_depthKvs data kv (hl kv hkv)
        omega)
    refine ⟨st, h1, ?_⟩
    intro e he
    have h := hm e he
    omega
  have hbound : ∀ k, ∀ kv ∈ data, kv.2.depth + 2 ≤ depthKvs data + 1 + k + 1 := by
    intro k kv hkv
    have h := depth_le_depthKvs data kv hkv
    omega
  obtain ⟨r, hr, _⟩ := digFuel_agree ord hord (depthKvs data + 1) visits data (hbound 0)
  refine ⟨r, hr, ?_⟩
  have hstable : ∀ k, digFuel ord (depthKvs data + 2 + k) visits data = some r := by
    intro k
    induction k with
    | zero => exact hr
    | succ k ihk =>
      obtain ⟨r', h1, h2⟩ := digFuel_agree ord hord (depthKvs data + 1 + k) visits data (hbound k)
      have e1 : depthKvs data + 1 + k + 1 = depthKvs data + 2 + k := by omega
      have e2 : depthKvs data + 1 + k + 2 = depthKvs data + 2 + (k + 1) := by omega
      rw [e1] at h1
      rw [e2] at h2
      rw [h2, ← h1, ihk]
  intro fuel hfuel
  obtain ⟨k, rfl⟩ : ∃ k, fuel = depthKvs data + 2 + k := ⟨fuel - (depthKvs data + 2), by omega⟩
  exact hstable k

theorem C20_extractor_total_witness :
    ∃ r, digInJSONRaw (fun _ m => m) 0
        [("a", .obj [("ip", .str "1.1.1.1")]), ("b", .arr [.obj [("port", .num "80")]])]
          = some r ∧
      ∀ fuel,
        depthKvs [("a", Json.obj [("ip", .str "1.1.1.1")]),
            ("b", .arr [.obj [("port", .num "80")]])] + 2 ≤ fuel →
        digFuel (fun _ m => m) fuel 0
          [("a", .obj [("ip", .str "1.1.1.1")]), ("b", .arr [.obj [("port", .num "80")]])]
            = some r :=
  (C20_extractor_total (fun _ m => m) (fun _ m => List.Perm.refl m) 0
    [("a", .obj [("ip", .str "1.1.1.1")]), ("b", .arr [.obj [("port", .num "80")]])]).1

/-! ### Dependence on the order of visits -/

/-- C19, as stated, fails: the document with the keys ip (a), port (1) and x,
where x holds an object with ip (b) and port (2), gives the two addresses a:1
and b:2 when x is visited after ip and port, and only a:1 when x is visited
between them (the pending ip stops the descent into x).  Both orders visit
every entry of every map exactly once.  The same dependence shows with an
object next to any other key: two sibling records under the keys a and b are
listed in the order visited, and a record under a next to a scalar under b is
listed twice when a is visited first (the scalar makes the loop search the
carried map again) and once when b is visited first. -/
theorem C19_order_dependence_counterexample :
    (∀ n m, ((fun (_ : Nat) (m : RawMap) => m) n m).Perm m) ∧
    (∀ n m, (visitThirdSecond n m).Perm m) ∧
    (digInJSONRaw (fun _ m => m) 0
        [("ip", .str "a"), ("port", .num "1"),
         ("x", .obj [("ip", .str "b"), ("port", .num "2")])]).map Prod.fst
      = some ["a:1", "b:2"] ∧
    (digInJSONRaw visitThirdSecond 0
        [("ip", .str "a"), ("port", .num "1"),
         ("x", .obj [("ip", .str "b"), ("port", .num "2")])]).map Prod.fst
      = some ["a:1"] ∧
    (∀ n m, ((fun (_ : Nat) (m : RawMap) => m.reverse) n m).Perm m) ∧
    (digInJSONRaw (fun _ m => m) 0
        [("a", .obj [("ip", .str "a"), ("port", .num "1")]),
         ("b", .obj [("ip", .str "b"), ("port", .num "2")])]).map Prod.fst
      = some ["a:1", "b:2"] ∧
    (digInJSONRaw (fun _ m => m.reverse) 0
        [("a", .obj [("ip", .str "a"), ("port", .num "1")]),
         ("b", .obj [("ip", .str "b"), ("port", .num "2")])]).map Prod.fst
      = some ["b:2", "a:1"] ∧
    (digInJSONRaw (fun _ m => m) 0
        [("a", .obj [("ip", .str "a"), ("port", .num "1")]), ("b", .num "5")]).map Prod.fst
      = some ["a:1", "a:1"] ∧
    (digInJSONRaw (fun _ m => m.reverse) 0
        [("a", .obj [("ip", .str "a"), ("port", .num "1")]), ("b", .num "5")]).map Prod.fst
      = some ["a:1"] := by
  refine ⟨fun _ m => List.Perm.refl m, ?_, by decide, by decide,
    fun _ m => List.reverse_perm m, by decide, by decide, by decide, by decide⟩
  intro n m
  match m with
  | [] => exact List.Perm.refl _
  | [_] => exact List.Perm.refl _
  | [_, _] => exact List.Perm.refl _
  | [a, b, c] => exact List.Perm.cons a (List.Perm.swap b c [])
  | _ :: _ :: _ :: _ :: _ => exact List.Perm.refl _

theorem unmarshalMap_err (v : Json) (m : RawMap) (h : (unmarshalMap v m).1 = true) :
    (unmarshalMap v m).2 = m := by
  cases v <;> simp_all [unmarshalMap]

theorem unmarshalMap_leaf (x : Json) (hx : x.isLeaf = true) : (unmarshalMap x []).2 = [] := by
  cases x <;> simp_all [unmarshalMap, Json.isLeaf]

theorem unmarshalMap_inert (v : Json) (hv : v.inert = true) : (unmarshalMap v []).2 = [] := by
  cases v with
  | obj kvs =>
    simp only [Json.inert, List.isEmpty_iff] at hv
    subst hv
    rfl
  | null => rfl
  | bool b => rfl
  | num lit => rfl
  | str t => rfl
  | arr xs => rfl

theorem unmarshalList_inert (v : Json) (hv : v.inert = true) (l : List Json)
    (hl : ∀ x, l.get? 0 = some x → x.isLeaf = true) :
    ∀ x, (unmarshalList v l).2.get? 0 = some x → x.isLeaf = true := by
  intro x hx
  cases v with
  | arr xs =>
    cases xs with
    | nil => simp [unmarshalList] at hx
    | cons y ys =>
      simp only [unmarshalList, List.get?_cons_zero, Option.some.injEq] at hx
      simp only [Json.inert] at hv
      rw [← hx]
      exact hv
  | null => simp [unmarshalList] at hx
  | bool b => exact hl x hx
  | num lit => exact hl x hx
  | str t => exact hl x hx
  | obj kvs => exact hl x hx

theorem digBody_inert (dig : Nat → RawMap → Option (List String × Nat))
    (hnil : ∀ n, ∃ n', dig n [] = some ([], n'))
    (st : DigVars) (hst : nothingCarried st) (kv : String × Json)
    (hip : kv.1 ≠ "ip") (hport : kv.1 ≠ "port") (hv : kv.2.inert = true) :
    ∃ st1, digBody dig st kv = some st1 ∧ sameCapture st1 st ∧ nothingCarried st1 := by
  obtain ⟨hmap, hlist⟩ := hst
  have hm1 : (unmarshalMap kv.2 []).2 = [] := unmarshalMap_inert kv.2 hv
  have hl1 := unmarshalList_inert kv.2 hv st.listOfRaws hlist
  unfold digBody
  simp only [hip, hport, if_false, hmap, hm1]
  by_cases herr : (unmarshalMap kv.2 []).1 = true
  · simp only [if_pos herr]
    by_cases hcond : st.ip ++ st.port = "" ∧ (unmarshalList kv.2 st.listOfRaws).2.length > 0
    · simp only [if_pos hcond]
      cases hget : (unmarshalList kv.2 st.listOfRaws).2.get? 0 with
      | none =>
        have hlen := List.get?_eq_none.mp hget
        omega
      | some first =>
        have hfirst := unmarshalMap_leaf first (hl1 first hget)
        obtain ⟨n1, hn1⟩ := hnil st.visits
        obtain ⟨n2, hn2⟩ := hnil n1
        simp only [hfirst, hn1, if_pos hcond.1, hn2, List.append_nil]
        exact ⟨_, rfl, ⟨rfl, rfl, rfl⟩, rfl, hl1⟩
    · simp only [if_neg hcond]
      by_cases hemp : st.ip ++ st.port = ""
      · obtain ⟨n1, hn1⟩ := hnil st.visits
        simp only [if_pos hemp, hn1, List.append_nil]
        exact ⟨_, rfl, ⟨rfl, rfl, rfl⟩, rfl, hl1⟩
      · simp only [if_neg hemp]
        exact ⟨_, rfl, ⟨rfl, rfl, rfl⟩, rfl, hl1⟩
  · simp only [if_neg herr]
    by_cases hemp : st.ip ++ st.port = ""
    · obtain ⟨n1, hn1⟩ := hnil st.visits
      simp only [if_pos hemp, hn1, List.append_nil]
      exact ⟨_, rfl, ⟨rfl, rfl, rfl⟩, rfl, hlist⟩
    · simp only [if_neg hemp]
      exact ⟨_, rfl, ⟨rfl, rfl, rfl⟩, rfl, hlist⟩

theorem digBody_addr (digA digB : Nat → RawMap → Option (List String × Nat))
    (st st' : DigVars) (hsame : sameCapture st st') (kv : String × Json)
    (hk : kv.1 = "ip" ∨ kv.1 = "port") :
    ∃ st1 st2, digBody digA st kv = some st1 ∧ digBody digB st' kv = some st2 ∧
      sameCapture st1 st2 ∧ st1.mapOfRaws = st.mapOfRaws ∧ st1.listOfRaws = st.listOfRaws := by
  obtain ⟨hres, hipv, hportv⟩ := hsame
  by_cases hip : kv.1 = "ip"
  · unfold digBody
    simp only [hip, if_true, ← hipv, ← hportv, ← hres]
    by_cases hc : unmarshalString kv.2 st.ip ++ ":" ≠ "" ∧ st.port ≠ ""
    · simp only [if_pos hc]
      exact ⟨_, _, rfl, rfl, ⟨rfl, rfl, rfl⟩, rfl, rfl⟩
    · simp only [if_neg hc]
      exact ⟨_, _, rfl, rfl, ⟨rfl, rfl, rfl⟩, rfl, rfl⟩
  · have hport : kv.1 = "port" := by
      rcases hk with h | h
      · exact absurd h hip
      · exact h
    have hne : ¬ ("port" = "ip") := by decide
    unfold digBody
    simp only [hport, hne, if_true, if_false, ← hipv, ← hportv, ← hres]
    by_cases hc : st.ip ≠ "" ∧ unmarshalNumber kv.2 "" ≠ ""
    · simp only [if_pos hc]
      exact ⟨_, _, rfl, rfl, ⟨rfl, rfl, rfl⟩, rfl, rfl⟩
    · simp only [if_neg hc]
      exact ⟨_, _, rfl, rfl, ⟨rfl, rfl, rfl⟩, rfl, rfl⟩

theorem digLoop_record_result (dig : Nat → RawMap → Option (List String × Nat)) (a b : Json)
    (n : Nat) (l : List (String × Json)) (hl : l.Perm [("ip", a), ("port", b)]) :
    (digLoop dig (digInit n) l).map DigVars.result
      = some (if unmarshalNumber b "" ≠ "" then
          [unmarshalString a "" ++ ":" ++ unmarshalNumber b ""] else []) := by
  have hcol := append_colon_ne (unmarshalString a "")
  rcases perm_pair _ _ l hl with rfl | rfl
  · simp only [digLoop, digBody, digInit]
    by_cases hp : unmarshalNumber b "" = ""
    · simp [hp, hcol]
    · simp [hp, hcol]
  · simp only [digLoop, digBody, digInit]
    by_cases hp : unmarshalNumber b "" = ""
    · simp [hp, hcol]
    · simp [hp, hcol]

theorem digLoop_singleton (dig : Nat → RawMap → Option (List String × Nat)) (st : DigVars)
    (kv : String × Json) : digLoop dig st [kv] = digBody dig st kv := by
  simp only [digLoop]
  cases digBody dig st kv <;> rfl

theorem digLoop_flat (digA digB : Nat → RawMap → Option (List String × Nat))
    (hnil : ∀ n, ∃ n', digA n [] = some ([], n')) (l : List (String × Json)) :
    (∀ kv ∈ l, kv.1 = "ip" ∨ kv.1 = "port" ∨ kv.2.inert = true) →
    ∀ st st' : DigVars, nothingCarried st → sameCapture st st' →
      ∃ st1 st2, digLoop digA st l = some st1 ∧
        digLoop digB st' (l.filter isAddrKey) = some st2 ∧
        sameCapture st1 st2 := by
  induction l with
  | nil => intro _ st st' _ hsame; exact ⟨st, st', rfl, rfl, hsame⟩
  | cons kv l ih =>
    intro hflat st st' hst hsame
    have hrest : ∀ e ∈ l, e.1 = "ip" ∨ e.1 = "port" ∨ e.2.inert = true :=
      fun e he => hflat e (List.mem_cons_of_mem _ he)
    by_cases hk : kv.1 = "ip" ∨ kv.1 = "port"
    · have hkeep : isAddrKey kv = true := by
        simpa [isAddrKey] using hk
      obtain ⟨s1, s2, h1, h2, hs, hm, hl⟩ := digBody_addr digA digB st st' hsame kv hk
      have hs1 : nothingCarried s1 := by
        unfold nothingCarried
        rw [hm, hl]
        exact hst
      obtain ⟨t1, t2, h3, h4, ht⟩ := ih hrest s1 s2 hs1 hs
      refine ⟨t1, t2, ?_, ?_, ht⟩
      · simp only [digLoop, h1, h3]
      · rw [List.filter_cons_of_pos hkeep]
        simp only [digLoop, h2, h4]
    · have hip : kv.1 ≠ "ip" := fun h => hk (Or.inl h)
      have hport : kv.1 ≠ "port" := fun h => hk (Or.inr h)
      have hdrop : ¬ isAddrKey kv = true := by
        simpa [isAddrKey] using hk
      have hv : kv.2.inert = true := by
        rcases hflat kv (List.mem_cons_self _ _) with h | h | h
        · exact absurd h hip
        · exact absurd h hport
        · exact h
      obtain ⟨s1, h1, hs, hs1⟩ := digBody_inert digA hnil st hst kv hip hport hv
      have hs' : sameCapture s1 st' :=
        ⟨hs.1.trans hsame.1, hs.2.1.trans hsame.2.1, hs.2.2.trans hsame.2.2⟩
      obtain ⟨t1, t2, h3, h4, ht⟩ := ih hrest s1 st' hs1 hs'
      refine ⟨t1, t2, ?_, ?_, ht⟩
      · simp only [digLoop, h1, h3]
      · rw [List.filter_cons_of_neg hdrop]
        exact h4

theorem digLoop_addr_perm (dig : Nat → RawMap → Option (List String × Nat))
    (f1 f2 : List (String × Json)) (hperm : f1.Perm f2)
    (hkeys : ∀ kv ∈ f1, kv.1 = "ip" ∨ kv.1 = "port")
    (hnodup : (f1.map Prod.fst).Nodup) (a b : Nat) :
    ∃ st1 st2, digLoop dig (digInit a) f1 = some st1 ∧ digLoop dig (digInit b) f2 = some st2 ∧
      st1.result = st2.result := by
  match f1, hperm, hkeys, hnodup with
  | [], hperm, _, _ =>
    rw [List.Perm.eq_nil hperm.symm]
    exact ⟨_, _, rfl, rfl, rfl⟩
  | [x], hperm, hkeys, _ =>
    rw [List.perm_singleton.mp hperm.symm, digLoop_singleton, digLoop_singleton]
    obtain ⟨s1, s2, h1, h2, hs, _, _⟩ := digBody_addr dig dig (digInit a) (digInit b)
      ⟨rfl, rfl, rfl⟩ x (hkeys x (List.mem_singleton_self x))
    exact ⟨s1, s2, h1, h2, hs.1⟩
  | [x, y], hperm, hkeys, hnodup =>
    have hx := hkeys x (by simp)
    have hy := hkeys y (by simp)
    have hne : x.1 ≠ y.1 := by
      intro h
      simp [h] at hnodup
    have hrec : ∃ va vb, [x, y].Perm [("ip", va), ("port", vb)] := by
      obtain ⟨k1, v1⟩ := x
      obtain ⟨k2, v2⟩ := y
      simp only at hx hy hne
      rcases hx with h1 | h1 <;> rcases hy with h2 | h2
      · exact absurd (h1.trans h2.symm) hne
      · exact ⟨v1, v2, by rw [h1, h2]⟩
      · exact ⟨v2, v1, by rw [h1, h2]; exact List.Perm.swap _ _ _⟩
      · exact absurd (h1.trans h2.symm) hne
    obtain ⟨va, vb, hp⟩ := hrec
    have e1 := digLoop_record_result dig va vb a [x, y] hp
    have e2 := digLoop_record_result dig va vb b f2 (hperm.symm.trans hp)
    cases h1 : digLoop dig (digInit a) [x, y] with
    | none => rw [h1] at e1; simp at e1
    | some s1 =>
      cases h2 : digLoop dig (digInit b) f2 with
      | none => rw [h2] at e2; simp at e2
      | some s2 =>
        rw [h1] at e1
        rw [h2] at e2
        simp only [Option.map_some', Option.some.injEq] at e1 e2
        exact ⟨s1, s2, rfl, rfl, e1.trans e2.symm⟩
  | x :: y :: z :: rest, _, hkeys, hnodup =>
    exfalso
    have hx := hkeys x (by simp)
    have hy := hkeys y (by simp)
    have hz := hkeys z (by simp)
    simp only [List.map_cons, List.nodup_cons, List.mem_cons, not_or] at hnodup
    obtain ⟨⟨hxy, hxz, _⟩, ⟨hyz, _⟩, _⟩ := hnodup
    rcases hx with h1 | h1 <;> rcases hy with h2 | h2 <;> rcases hz with h3 | h3 <;>
      simp_all

theorem digLoop_flat_perm (dig1 dig2 : Nat → RawMap → Option (List String × Nat))
    (hnil1 : ∀ n, ∃ n', dig1 n [] = some ([], n'))
    (hnil2 : ∀ n, ∃ n', dig2 n [] = some ([], n'))
    (m : RawMap) (hflat : ∀ kv ∈ m, kv.1 = "ip" ∨ kv.1 = "port" ∨ kv.2.inert = true)
    (hnodup : (m.map Prod.fst).Nodup) (l1 l2 : List (String × Json))
    (h1 : l1.Perm m) (h2 : l2.Perm m) (a b : Nat) :
    ∃ st1 st2, digLoop dig1 (digInit a) l1 = some st1 ∧ digLoop dig2 (digInit b) l2 = some st2 ∧
      st1.result = st2.result := by
  have hinit : ∀ n, nothingCarried (digInit n) := by
    intro n
    exact ⟨rfl, fun x hx => by simp [digInit] at hx⟩
  obtain ⟨s1, f1, e1, e1f, hs1⟩ := digLoop_flat dig1 dig1 hnil1 l1
    (fun kv hkv => hflat kv (h1.subset hkv)) (digInit a) (digInit a) (hinit a) ⟨rfl, rfl, rfl⟩
  obtain ⟨s2, f2, e2, e2f, hs2⟩ := digLoop_flat dig2 dig1 hnil2 l2
    (fun kv hkv => hflat kv (h2.subset hkv)) (digInit b) (digInit b) (hinit b) ⟨rfl, rfl, rfl⟩
  have hkeys : ∀ kv ∈ l1.filter isAddrKey, kv.1 = "ip" ∨ kv.1 = "port" := by
    intro kv hkv
    have h := (List.mem_filter.mp hkv).2
    simpa [isAddrKey] using h
  have hnd : ((l1.filter isAddrKey).map Prod.fst).Nodup := by
    have hsub : ((l1.filter isAddrKey).map Prod.fst).Sublist (l1.map Prod.fst) :=
      List.Sublist.map _ (List.filter_sublist l1)
    exact List.Nodup.sublist hsub ((List.Perm.nodup_iff (h1.map Prod.fst)).mpr hnodup)
  obtain ⟨g1, g2, e3, e4, hg⟩ := digLoop_addr_perm dig1 (l1.filter isAddrKey)
    (l2.filter isAddrKey) ((h1.trans h2.symm).filter _) hkeys hnd a b
  rw [e1f] at e3
  rw [e2f] at e4
  have hf1 : f1 = g1 := Option.some.inj e3
  have hf2 : f2 = g2 := Option.some.inj e4
  refine ⟨s1, s2, e1, e2, ?_⟩
  rw [hs1.1, hs2.1, hf1, hf2, hg]

theorem nodup_keys_mapSet (m : RawMap) (k : String) (v : Json)
    (h : (m.map Prod.fst).Nodup) : ((mapSet m k v).map Prod.fst).Nodup := by
  induction m with
  | nil => simp [mapSet]
  | cons e m ih =>
    obtain ⟨k', v'⟩ := e
    simp only [List.map_cons, List.nodup_cons] at h
    unfold mapSet
    by_cases hk : k' = k
    · simp only [hk, if_true, List.map_cons, List.nodup_cons]
      rw [← hk]
      exact h
    · simp only [hk, if_false, List.map_cons, List.nodup_cons]
      refine ⟨?_, ih h.2⟩
      intro hmem
      obtain ⟨e, he, hfst⟩ := List.mem_map.mp hmem
      rcases mem_mapSet m k v e he with h' | h'
      · exact h.1 (List.mem_map.mpr ⟨e, h', hfst⟩)
      · rw [h'] at hfst
        exact hk hfst.symm

theorem nodup_keys_unmarshalMap (v : Json) : (((unmarshalMap v []).2).map Prod.fst).Nodup := by
  have hfold : ∀ (kvs : List (String × Json)) (m : RawMap), (m.map Prod.fst).Nodup →
      ((kvs.foldl (fun acc e => mapSet acc e.1 e.2) m).map Prod.fst).Nodup := by
    intro kvs
    induction kvs with
    | nil => intro m hm; exact hm
    | cons e kvs ih =>
      intro m hm
      exact ih _ (nodup_keys_mapSet m e.1 e.2 hm)
  cases v with
  | obj kvs => exact hfold kvs [] List.nodup_nil
  | null => exact List.nodup_nil
  | bool b => exact List.nodup_nil
  | num lit => exact List.nodup_nil
  | str t => exact List.nodup_nil
  | arr xs => exact List.nodup_nil

theorem steady_cases (v : Json) (hv : v.steady = true) :
    (∀ kv ∈ (unmarshalMap v []).2, kv.1 = "ip" ∨ kv.1 = "port" ∨ kv.2.inert = true) ∨
    ∃ k v', (unmarshalMap v []).2 = [(k, v')] ∧ v'.steady = true := by
  cases v with
  | obj kvs =>
    simp only [Json.steady, Bool.or_eq_true] at hv
    rcases hv with hflat | hsingle
    · left
      intro kv hkv
      rcases mem_foldl_mapSet kvs [] kv hkv with h | h
      · simp at h
      · have hall := List.all_eq_true.mp hflat kv h
        simp only [Bool.or_eq_true, decide_eq_true_eq] at hall
        rcases hall with (h1 | h1) | h1
        · exact Or.inl h1
        · exact Or.inr (Or.inl h1)
        · exact Or.inr (Or.inr h1)
    · right
      match kvs, hsingle with
      | [(k, v')], hsingle =>
        simp only [steadySingle, List.isEmpty_nil, Bool.true_and] at hsingle
        exact ⟨k, v', rfl, hsingle⟩
      | [], hsingle => simp [steadySingle] at hsingle
      | _ :: _ :: _, hsingle => simp [steadySingle] at hsingle
  | null => left; intro kv hkv; simp [unmarshalMap] at hkv
  | bool b => left; intro kv hkv; simp [unmarshalMap] at hkv
  | num lit => left; intro kv hkv; simp [unmarshalMap] at hkv
  | str t => left; intro kv hkv; simp [unmarshalMap] at hkv
  | arr xs => left; intro kv hkv; simp [unmarshalMap] at hkv

theorem steady_first (v : Json) (hv : v.steady = true) (first : Json)
    (h : (unmarshalList v []).2.get? 0 = some first) : first.steady = true := by
  cases v with
  | arr xs =>
    cases xs with
    | nil => simp [unmarshalList] at h
    | cons y ys =>
      simp only [unmarshalList, List.get?_cons_zero, Option.some.injEq] at h
      simp only [Json.steady, steadyFirst] at hv
      rw [← h]
      exact hv
  | null => simp [unmarshalList] at h
  | bool b => simp [unmarshalList] at h
  | num lit => simp [unmarshalList] at h
  | str t => simp [unmarshalList] at h
  | obj kvs => simp [unmarshalList] at h

theorem digBody_steady (bound : Nat) (dig1 dig2 : Nat → RawMap → Option (List String × Nat))
    (hdig : ∀ v', v'.steady = true →
      (∀ kv ∈ (unmarshalMap v' []).2, kv.2.depth + 2 ≤ bound) →
      ∀ n1 n2, ∃ r n1' n2', dig1 n1 (unmarshalMap v' []).2 = some (r, n1') ∧
        dig2 n2 (unmarshalMap v' []).2 = some (r, n2'))
    (k : String) (v : Json) (hv : v.steady = true) (hdepth : v.depth + 1 ≤ bound)
    (a b : Nat) :
    ∃ st1 st2, digBody dig1 (digInit a) (k, v) = some st1 ∧
      digBody dig2 (digInit b) (k, v) = some st2 ∧ st1.result = st2.result := by
  have hemp : ("" : String) ++ "" = "" := by decide
  by_cases hk : k = "ip" ∨ k = "port"
  · obtain ⟨s1, s2, h1, h2, hs, _, _⟩ := digBody_addr dig1 dig2 (digInit a) (digInit b)
      ⟨rfl, rfl, rfl⟩ (k, v) hk
    exact ⟨s1, s2, h1, h2, hs.1⟩
  · have hip : ¬ k = "ip" := fun h => hk (Or.inl h)
    have hport : ¬ k = "port" := fun h => hk (Or.inr h)
    have hnil : ∀ n1 n2, ∃ r n1' n2', dig1 n1 [] = some (r, n1') ∧ dig2 n2 [] = some (r, n2') :=
      fun n1 n2 => hdig .null rfl (by intro kv h; simp [unmarshalMap] at h) n1 n2
    have hvac : ∀ kv ∈ ([] : RawMap), kv.2.depth + 2 ≤ bound := by
      intro kv h
      simp at h
    unfold digBody
    simp only [hip, hport, if_false, digInit]
    by_cases herr : (unmarshalMap v []).1 = true
    · have hmnil := unmarshalMap_err v [] herr
      simp only [if_pos herr, hmnil]
      by_cases hcond : ("" : String) ++ "" = "" ∧ (unmarshalList v []).2.length > 0
      · simp only [if_pos hcond]
        cases hget : (unmarshalList v []).2.get? 0 with
        | none =>
          have hlen := List.get?_eq_none.mp hget
          omega
        | some first =>
          have hfs := steady_first v hv first hget
          have hfd : first.depth + 1 ≤ bound :=
            unmarshalList_bound bound v [] hdepth (by intro x hx; simp at hx) first
              (List.get?_mem hget)
          have hb := unmarshalMap_bound bound first [] hfd hvac
          obtain ⟨r1, n1', n2', h1, h2⟩ := hdig first hfs hb a b
          obtain ⟨r2, n3, n4, h3, h4⟩ := hdig first hfs hb n1' n2'
          simp only [h1, h2, if_pos hemp, h3, h4]
          exact ⟨_, _, rfl, rfl, rfl⟩
      · simp only [if_neg hcond, if_pos hemp]
        obtain ⟨r1, n1', n2', h1, h2⟩ := hnil a b
        simp only [h1, h2]
        exact ⟨_, _, rfl, rfl, rfl⟩
    · simp only [if_neg herr, if_pos hemp]
      obtain ⟨r1, n1', n2', h1, h2⟩ :=
        hdig v hv (unmarshalMap_bound bound v [] hdepth hvac) a b
      simp only [h1, h2]
      exact ⟨_, _, rfl, rfl, rfl⟩

theorem digFuel_nil (ord : Nat → RawMap → List (String × Json))
    (hord : ∀ n m, (ord n m).Perm m) (fuel n : Nat) :
    digFuel ord (fuel + 1) n [] = some ([], n + 1) := by
  rw [digFuel_step, List.Perm.eq_nil (hord n [])]
  rfl

theorem digFuel_steady (ord1 ord2 : Nat → RawMap → List (String × Json))
    (hord1 : ∀ n m, (ord1 n m).Perm m) (hord2 : ∀ n m, (ord2 n m).Perm m) (fuel : Nat) :
    ∀ v : Json, v.steady = true →
      (∀ kv ∈ (unmarshalMap v []).2, kv.2.depth + 2 ≤ fuel + 1) →
      ∀ n1 n2, ∃ r n1' n2', digFuel ord1 (fuel + 1) n1 (unmarshalMap v []).2 = some (r, n1') ∧
        digFuel ord2 (fuel + 1) n2 (unmarshalMap v []).2 = some (r, n2') := by
  induction fuel with
  | zero =>
    intro v _ hb n1 n2
    have hm : (unmarshalMap v []).2 = [] := by
      cases h : (unmarshalMap v []).2 with
      | nil => rfl
      | cons e m =>
        have hbe := hb e (by rw [h]; exact List.mem_cons_self _ _)
        omega
    rw [hm]
    exact ⟨[], n1 + 1, n2 + 1, digFuel_nil ord1 hord1 0 n1, digFuel_nil ord2 hord2 0 n2⟩
  | succ fuel ih =>
    intro v hv hb n1 n2
    rcases steady_cases v hv with hflat | ⟨k, v', hm, hv'⟩
    · obtain ⟨s1, s2, e1, e2, hres⟩ := digLoop_flat_perm (digFuel ord1 (fuel + 1))
        (digFuel ord2 (fuel + 1))
        (fun n => ⟨n + 1, digFuel_nil ord1 hord1 fuel n⟩)
        (fun n => ⟨n + 1, digFuel_nil ord2 hord2 fuel n⟩)
        (unmarshalMap v []).2 hflat (nodup_keys_unmarshalMap v)
        (ord1 n1 (unmarshalMap v []).2) (ord2 n2 (unmarshalMap v []).2)
        (hord1 _ _) (hord2 _ _) (n1 + 1) (n2 + 1)
      refine ⟨s1.result, s1.visits, s2.visits, ?_, ?_⟩
      · rw [digFuel_step, e1]
      · rw [digFuel_step, e2, hres]
    · have hdepth : v'.depth + 1 ≤ fuel + 1 := by
        have h := hb (k, v') (by rw [hm]; exact List.mem_singleton_self _)
        simp only at h
        omega
      obtain ⟨s1, s2, e1, e2, hres⟩ := digBody_steady (fuel + 1) (digFuel ord1 (fuel + 1))
        (digFuel ord2 (fuel + 1)) ih k v' hv' hdepth (n1 + 1) (n2 + 1)
      rw [hm]
      refine ⟨s1.result, s1.visits, s2.visits, ?_, ?_⟩
      · rw [digFuel_step, List.perm_singleton.mp (hord1 n1 _), digLoop_singleton, e1]
      · rw [digFuel_step, List.perm_singleton.mp (hord2 n2 _), digLoop_singleton, e2, hres]

/-- C19, amended. The extractor is deterministic where the search meets no
object or list next to another key: for every JSON document in which every
object the search reaches (the document, the value under the single key of an
object reached, the first element of a list reached) has a single key, or has
under its keys other than ip and port only values with nothing to search
(scalars, null, the empty object, the empty list, a list starting with a scalar
or null), digInJSONRaw returns a list, and the list is the same for every two
orders in which the keys of each map are visited; so parseServerAndHostFromRes
returns the same list on the same bytes. -/
theorem C19_order_free (ord1 ord2 : Nat → RawMap → List (String × Json))
    (hord1 : ∀ n m, (ord1 n m).Perm m) (hord2 : ∀ n m, (ord2 n m).Perm m)
    (doc : Json) (hdoc : doc.steady = true) :
    (∀ n1 n2, ∃ r, (digInJSONRaw ord1 n1 (unmarshalMap doc []).2).map Prod.fst = some r ∧
        (digInJSONRaw ord2 n2 (unmarshalMap doc []).2).map Prod.fst = some r) ∧
    (∀ (decode : String → Option Json) (body : String), decode body = some doc →
      parseServerAndHostFromRes decode ord1 body = parseServerAndHostFromRes decode ord2 body) := by
  have hdig : ∀ n1 n2, ∃ r,
      (digInJSONRaw ord1 n1 (unmarshalMap doc []).2).map Prod.fst = some r ∧
      (digInJSONRaw ord2 n2 (unmarshalMap doc []).2).map Prod.fst = some r := by
    intro n1 n2
    have hb : ∀ kv ∈ (unmarshalMap doc []).2,
        kv.2.depth + 2 ≤ depthKvs (unmarshalMap doc []).2 + 1 + 1 := by
      intro kv hkv
      have h := depth_le_depthKvs _ kv hkv
      omega
    obtain ⟨r, n1', n2', h1, h2⟩ := digFuel_steady ord1 ord2 hord1 hord2
      (depthKvs (unmarshalMap doc []).2 + 1) doc hdoc hb n1 n2
    refine ⟨r, ?_, ?_⟩
    · unfold digInJSONRaw
      rw [h1]
      rfl
    · unfold digInJSONRaw
      rw [h2]
      rfl
  refine ⟨hdig, ?_⟩
  intro decode body hbody
  unfold parseServerAndHostFromRes
  simp only [hbody]
  by_cases herr : (unmarshalMap doc []).1 = true
  · simp only [if_pos herr]
  · simp only [if_neg herr]
    obtain ⟨r, h1, h2⟩ := hdig 0 0
    rw [h1, h2]

theorem C19_order_free_witness :
    (∀ n1 n2, ∃ r,
      (digInJSONRaw (fun _ m => m) n1
        (unmarshalMap (.obj [("data", .obj [("ip", .str "1.2.3.4"), ("port", .num "8080"),
          ("country", .str "US"), ("tags", .arr [.str "fast"])])]) []).2).map Prod.fst
        = some r ∧
      (digInJSONRaw (fun _ m => m.reverse) n2
        (unmarshalMap (.obj [("data", .obj [("ip", .str "1.2.3.4"), ("port", .num "8080"),
          ("country", .str "US"), ("tags", .arr [.str "fast"])])]) []).2).map Prod.fst
        = some r) ∧
    (∀ (decode : String → Option Json) (body : String),
      decode body
        = some (.obj [("data", .obj [("ip", .str "1.2.3.4"), ("port", .num "8080"),
            ("country", .str "US"), ("tags", .arr [.str "fast"])])]) →
      parseServerAndHostFromRes decode (fun _ m => m) body
        = parseServerAndHostFromRes decode (fun _ m => m.reverse) body) :=
  C19_order_free (fun _ m => m) (fun _ m => m.reverse) (fun _ m => List.Perm.refl m)
    (fun _ m => List.reverse_perm m)
    (.obj [("data", .obj [("ip", .str "1.2.3.4"), ("port", .num "8080"),
      ("country", .str "US"), ("tags", .arr [.str "fast"])])]) (by decide)

end ProxyURL
